import Mathlib

/-!
# Verification of the quickphf PTHash construction and lookup code

This file is a shallow embedding, in Lean, of the core of the `quickphf` /
`quickphf_codegen` Rust crates:

* the shared hashing kernel (`quickphf/src/shared.rs`),
* the runtime lookup engine (`quickphf/src/raw_map.rs`, `map.rs`, `set.rs`),
* the PTHash constructor (`quickphf_codegen/src/phf.rs`), and
* the construction entry points (`quickphf_codegen/src/lib.rs`).

Machine integers are modelled as `Nat` with explicit `% 2 ^ 64` where the Rust
code relies on wrapping arithmetic.  The key hash function (the external
`wyhash` crate) is kept abstract: every definition is parameterised by a
function `h : K → Nat → Nat` standing for `hash_key(key, seed)`.  Rust panics
are modelled by `Except` error values, and the unbounded seed-search loop by an
explicit fuel parameter.  The bucket count and codomain length, which the Rust
code derives with `f64` arithmetic, are passed in as plain parameters `B`
and `M`.
-/

namespace QuickPhf

/-- `2 ^ 64`, the modulus for `u64` arithmetic. -/
def U64 : Nat := 2 ^ 64

/-- `u32::MAX`, the sentinel marking an empty slot of the placement table in
`try_generate_phf` (`const EMPTY: u32 = u32::MAX`). -/
def EMPTY : Nat := 2 ^ 32 - 1

/-- The multiplicative constant from `fxhash` used by `hash_pilot_value`
(`shared.rs`). -/
def FXK : Nat := 0x517cc1b727220a95

/-- `hash_pilot_value(pilot)`: `(pilot as u64).wrapping_mul(K)` (`shared.rs`). -/
def hashPilotValue (pilot : Nat) : Nat := (pilot * FXK) % U64

/-- `get_bucket(key_hash, buckets)`: `key_hash % buckets` (`shared.rs`). -/
def getBucket (keyHash buckets : Nat) : Nat := keyHash % buckets

/-- `get_index(key_hash, pilot_hash, codomain_len)`:
`(key_hash ^ pilot_hash) % codomain_len` (`shared.rs`). -/
def getIndex (keyHash pilotHash codomainLen : Nat) : Nat :=
  (keyHash ^^^ pilotHash) % codomainLen

/-- The parameters of a PTHash perfect hash function (`struct Phf`,
`quickphf_codegen/src/phf.rs`). -/
structure Phf where
  seed : Nat
  pilotsTable : List Nat
  map : List Nat
  free : List Nat
deriving DecidableEq, Repr

/-- The panics that `try_generate_phf` can raise: the duplicate-key panic
(`panic!("duplicate keys at indices {} and {}", ...)`) and the size assertion
(`assert!((entries.len() as u64) < (u32::MAX as u64))`). -/
inductive PhfError where
  | duplicateKeys (i j : Nat)
  | tooManyKeys
deriving DecidableEq, Repr

/-- One hashed input entry (`struct HashedEntry` in `try_generate_phf`):
its index in the input slice, its key hash, and its bucket. -/
structure HashedEntry where
  idx : Nat
  hash : Nat
  bucket : Nat
deriving DecidableEq, Repr

/-- Hash every entry and assign it to a bucket, with running index `i`
(`entries.iter().enumerate().map(...)` in `try_generate_phf`). -/
def hashEntriesAux {K : Type _} (h : K → Nat → Nat) (seed B : Nat) :
    Nat → List K → List HashedEntry
  | _, [] => []
  | i, k :: rest =>
    { idx := i, hash := h k seed, bucket := getBucket (h k seed) B } ::
      hashEntriesAux h seed B (i + 1) rest

/-- All hashed entries of the input (`hashed_entries` before sorting). -/
def hashEntries {K : Type _} (h : K → Nat → Nat) (seed B : Nat)
    (entries : List K) : List HashedEntry :=
  hashEntriesAux h seed B 0 entries

/-- The sort key of `hashed_entries.sort_unstable_by_key(|e| (e.bucket, e.hash))`:
lexicographic comparison on `(bucket, hash)`. -/
def entryLE (a b : HashedEntry) : Bool :=
  a.bucket < b.bucket || (a.bucket == b.bucket && a.hash ≤ b.hash)

/-- Insert `a` into an already-sorted list (helper for `sortBy`). -/
def insertSorted {α : Type _} (le : α → α → Bool) (a : α) : List α → List α
  | [] => [a]
  | b :: l => if le a b then a :: b :: l else b :: insertSorted le a l

/-- Sorting by the comparison `le`; models the `sort_unstable_by_key` /
`sort_unstable_by` calls of `try_generate_phf` (any comparison sort is an
admissible refinement of the unstable quicksort the source uses). -/
def sortBy {α : Type _} (le : α → α → Bool) : List α → List α
  | [] => []
  | a :: l => insertSorted le a (sortBy le l)

instance {ε α : Type _} [DecidableEq ε] [DecidableEq α] :
    DecidableEq (Except ε α) := fun x y =>
  match x, y with
  | .error a, .error b =>
    if hab : a = b then .isTrue (hab ▸ rfl)
    else .isFalse (fun hc => hab (Except.error.inj hc))
  | .ok a, .ok b =>
    if hab : a = b then .isTrue (hab ▸ rfl)
    else .isFalse (fun hc => hab (Except.ok.inj hc))
  | .error _, .ok _ => .isFalse (fun hc => Except.noConfusion hc)
  | .ok _, .error _ => .isFalse (fun hc => Except.noConfusion hc)

/-- The adjacent-pair collision scan of `try_generate_phf`
(`for window in hashed_entries.as_slice().windows(2)`): the first window whose
two entries share both bucket and hash decides the outcome — a duplicate-key
panic if the underlying keys compare equal, otherwise a failed seed
(`.ok false`).  `.ok true` means no collision was found. -/
def scanCollisions {K : Type _} [DecidableEq K] (entries : List K) :
    List HashedEntry → Except PhfError Bool
  | e0 :: e1 :: rest =>
    if e0.hash = e1.hash ∧ e0.bucket = e1.bucket then
      if entries.get? e0.idx = entries.get? e1.idx then
        .error (.duplicateKeys e0.idx e1.idx)
      else
        .ok false
    else
      scanCollisions entries (e1 :: rest)
  | _ => .ok true

/-- Group the sorted entries into buckets (`for idx in 0..buckets_len`,
`take_while(|entry| entry.bucket == idx)`): bucket `idx` receives the leading
run of entries whose `bucket` field equals `idx`. -/
def formBucketsAux : Nat → Nat → List HashedEntry → List (Nat × List HashedEntry)
  | 0, _, _ => []
  | b + 1, idx, rest =>
    let grp := rest.takeWhile (fun e => e.bucket == idx)
    (idx, grp) :: formBucketsAux b (idx + 1) (rest.drop grp.length)

/-- First pass of the pilot trial (`for entry in bucket_entries.iter()`):
compute each entry's destination `get_index(hash, pilot_hash, M)` and reject the
pilot (`continue 'pilots`, here `none`) as soon as a destination hits an
occupied slot of the placement table `m`. -/
def computeDests (m : List Nat) (M ph : Nat) :
    List HashedEntry → Option (List (Nat × Nat))
  | [] => some []
  | e :: rest =>
    let d := getIndex e.hash ph M
    if m.getD d EMPTY ≠ EMPTY then none
    else (computeDests m M ph rest).map (fun l => (e.idx, d) :: l)

/-- The within-bucket collision check (`values_to_add` sorted by destination,
then adjacent windows compared): `true` iff two adjacent pairs share a
destination. -/
def hasDupDest : List (Nat × Nat) → Bool
  | p :: q :: rest => p.2 == q.2 || hasDupDest (q :: rest)
  | _ => false

/-- The pilot search for one bucket (`'pilots: for pilot in 0u16..=u16::MAX`),
with `fuel` remaining pilots and `p` the next pilot to try.  Returns the first
pilot whose destinations are all fresh and pairwise distinct, together with the
`(idx, destination)` pairs to write. -/
def findPilotAux (m : List Nat) (M : Nat) (grp : List HashedEntry) :
    Nat → Nat → Option (Nat × List (Nat × Nat))
  | 0, _ => none
  | fuel + 1, p =>
    match computeDests m M (hashPilotValue p) grp with
    | none => findPilotAux m M grp fuel (p + 1)
    | some vta =>
      if hasDupDest (sortBy (fun a b => a.2 ≤ b.2) vta) then
        findPilotAux m M grp fuel (p + 1)
      else
        some (p, vta)

/-- Commit an accepted pilot's placements
(`for &(idx, destination) in &values_to_add { map[destination] = idx as u32 }`). -/
def writeAll (m : List Nat) : List (Nat × Nat) → List Nat
  | [] => m
  | (i, d) :: rest => writeAll (m.set d i) rest

/-- The greedy bucket loop (`for bucket in buckets`): search a pilot for each
bucket in the given order, recording it in `pilots` and committing its
placements into `m`; `none` reports the seed as failed
(`if !pilot_found { return None }`). -/
def placeBuckets (M : Nat) :
    List (Nat × List HashedEntry) → List Nat → List Nat →
      Option (List Nat × List Nat)
  | [], pilots, m => some (pilots, m)
  | (bidx, grp) :: rest, pilots, m =>
    match findPilotAux m M grp 65536 0 with
    | none => none
    | some (p, vta) => placeBuckets M rest (pilots.set bidx p) (writeAll m vta)

/-- The back-cursor advance of the compaction step
(`while map[back_idx] == EMPTY { back_idx += 1 }`), with explicit fuel. -/
def nextBack (m : List Nat) : Nat → Nat → Nat
  | 0, b => b
  | fuel + 1, b => if m.getD b EMPTY = EMPTY then nextBack m fuel (b + 1) else b

/-- The compaction walk (`for front_idx in 0..entries.len()`): `c` front slots
starting at `front` remain to process; each empty front slot receives the next
occupied back slot's value, and `free[back - n]` records where that back slot
was relocated. -/
def compactLoop (n : Nat) :
    Nat → Nat → List Nat → List Nat → Nat → List Nat × List Nat
  | 0, _, m, fr, _ => (m, fr)
  | c + 1, front, m, fr, back =>
    if m.getD front EMPTY ≠ EMPTY then
      compactLoop n c (front + 1) m fr back
    else
      let b := nextBack m m.length back
      compactLoop n c (front + 1) (m.set front (m.getD b EMPTY))
        (fr.set (b - n) front) (b + 1)

/-- Proof-infrastructure count: the number of occupied (non-`EMPTY`) slots
among the `c` consecutive positions of `m` starting at `a`. -/
def cntOcc (m : List Nat) : Nat → Nat → Nat
  | _, 0 => 0
  | a, c + 1 => (if m.getD a EMPTY ≠ EMPTY then 1 else 0) + cntOcc m (a + 1) c

/-- Proof-infrastructure count: the number of `EMPTY` slots among the `c`
consecutive positions of `m` starting at `a`. -/
def cntEmp (m : List Nat) : Nat → Nat → Nat
  | _, 0 => 0
  | a, c + 1 => (if m.getD a EMPTY = EMPTY then 1 else 0) + cntEmp m (a + 1) c

/-- `try_generate_phf(entries, buckets_len, codomain_len, seed)`
(`quickphf_codegen/src/phf.rs`): hash and sort the entries, scan for
collisions, assert the size bound, place every bucket, then compact the
placement table.  `.ok none` reports a failed seed; `.error` models the two
panics. -/
def tryGeneratePhf {K : Type _} [DecidableEq K] (h : K → Nat → Nat)
    (B M seed : Nat) (entries : List K) : Except PhfError (Option Phf) :=
  let sorted := sortBy entryLE (hashEntries h seed B entries)
  match scanCollisions entries sorted with
  | .error e => .error e
  | .ok false => .ok none
  | .ok true =>
    if entries.length < EMPTY then
      let buckets :=
        sortBy (fun b1 b2 => b2.2.length ≤ b1.2.length) (formBucketsAux B 0 sorted)
      match placeBuckets M buckets (List.replicate B 0) (List.replicate M EMPTY) with
      | none => .ok none
      | some (pilots, m) =>
        let res := compactLoop entries.length entries.length 0 m
          (List.replicate (M - entries.length) 0) entries.length
        .ok (some { seed := seed, pilotsTable := pilots,
                    map := res.1.take entries.length, free := res.2 })
    else .error .tooManyKeys

/-- The seed-search loop of `generate_phf`
(`(1..).find_map(|n| try_generate_phf(entries, ..., n << 32))`), with explicit
fuel; `k` is the next counter value to try. -/
def seedSearch {K : Type _} [DecidableEq K] (h : K → Nat → Nat) (B M : Nat)
    (entries : List K) : Nat → Nat → Except PhfError (Option Phf)
  | 0, _ => .ok none
  | fuel + 1, k =>
    match tryGeneratePhf h B M ((k <<< 32) % U64) entries with
    | .error e => .error e
    | .ok (some phf) => .ok (some phf)
    | .ok none => seedSearch h B M entries fuel (k + 1)

/-- The sentinel PHF emitted by `generate_phf` for an empty input
(`seed: 0, map: vec![], pilots_table: vec![0], free: vec![0]`). -/
def generatePhfEmpty : Phf :=
  { seed := 0, pilotsTable := [0], map := [], free := [0] }

/-- `generate_phf(entries)` with the bucket count `B` and codomain length `M`
passed in (the source computes them from `entries.len()` with `f64`
arithmetic) and explicit seed-search fuel: the empty input short-circuits to
the sentinel, otherwise the seed search starts at counter `1`. -/
def generatePhfWith {K : Type _} [DecidableEq K] (h : K → Nat → Nat)
    (B M : Nat) (entries : List K) (fuel : Nat) : Except PhfError (Option Phf) :=
  if entries.isEmpty then .ok (some generatePhfEmpty)
  else seedSearch h B M entries fuel 1

/-! ## The runtime lookup engine -/

/-- How a `RawPhfMap::get` call can fail: an out-of-bounds slice access (the
only failure the source code can actually produce), or the explicit
empty-table early-out that the specification describes (never produced by the
code in `raw_map.rs`). -/
inductive GetError where
  | emptyEarlyOut
  | indexOutOfBounds
deriving DecidableEq, Repr

/-- `RawPhfMap::get` (`quickphf/src/raw_map.rs`): hash the query, reduce to a
bucket, mix in the bucket's pilot hash, reduce to the codomain
`values.len() + free.len()`, and either read a front slot directly or follow
the `free` redirect.  Every slice access is modelled by `get?`, so an
out-of-bounds panic becomes `.error .indexOutOfBounds`. -/
def rawMapGet {Q V : Type _} (h : Q → Nat → Nat) (seed : Nat)
    (pilots : List Nat) (values : List V) (free : List Nat) (q : Q) :
    Except GetError V :=
  let keyHash := h q seed
  let bucket := getBucket keyHash pilots.length
  match pilots.get? bucket with
  | none => .error .indexOutOfBounds
  | some pv =>
    let idx := getIndex keyHash (hashPilotValue pv) (values.length + free.length)
    if idx < values.length then
      match values.get? idx with
      | some v => .ok v
      | none => .error .indexOutOfBounds
    else
      match free.get? (idx - values.length) with
      | none => .error .indexOutOfBounds
      | some f =>
        match values.get? f with
        | some v => .ok v
        | none => .error .indexOutOfBounds

/-- The intermediate index a lookup computes for query `q` against `phf`,
with `N` the number of stored values (`get_index(hash, pilot_hash, M)` in
`RawPhfMap::get`). -/
def phfIdx {K : Type _} (h : K → Nat → Nat) (phf : Phf) (N : Nat) (q : K) : Nat :=
  let kh := h q phf.seed
  let b := getBucket kh phf.pilotsTable.length
  getIndex kh (hashPilotValue (phf.pilotsTable.getD b 0)) (N + phf.free.length)

/-- The final slot a lookup resolves to: the intermediate index itself when it
is a front slot, otherwise the `free` redirect (`values[free[idx - len]]`). -/
def phfSlot {K : Type _} (h : K → Nat → Nat) (phf : Phf) (N : Nat) (q : K) : Nat :=
  let i := phfIdx h phf N q
  if i < N then i else phf.free.getD (i - N) 0

/-- `PhfMap::get_key_value` (`quickphf/src/map.rs`): empty maps answer `none`
before any table access; otherwise the raw lookup's entry is returned iff its
stored key equals the query. -/
def phfMapGetKeyValue {K V : Type _} [DecidableEq K] (h : K → Nat → Nat)
    (seed : Nat) (pilots : List Nat) (entries : List (K × V)) (free : List Nat)
    (q : K) : Except GetError (Option (K × V)) :=
  if entries.isEmpty then .ok none
  else
    (rawMapGet h seed pilots entries free q).map fun item =>
      if item.1 = q then some item else none

/-- `PhfMap::get`: `get_key_value(key).map(|e| e.1)`. -/
def phfMapGet {K V : Type _} [DecidableEq K] (h : K → Nat → Nat) (seed : Nat)
    (pilots : List Nat) (entries : List (K × V)) (free : List Nat) (q : K) :
    Except GetError (Option V) :=
  (phfMapGetKeyValue h seed pilots entries free q).map (fun o => o.map Prod.snd)

/-- `PhfMap::get_key`: `get_key_value(key).map(|e| e.0)`. -/
def phfMapGetKey {K V : Type _} [DecidableEq K] (h : K → Nat → Nat) (seed : Nat)
    (pilots : List Nat) (entries : List (K × V)) (free : List Nat) (q : K) :
    Except GetError (Option K) :=
  (phfMapGetKeyValue h seed pilots entries free q).map (fun o => o.map Prod.fst)

/-- `PhfMap::contains_key`: `get_key_value(key).is_some()`. -/
def phfMapContainsKey {K V : Type _} [DecidableEq K] (h : K → Nat → Nat)
    (seed : Nat) (pilots : List Nat) (entries : List (K × V)) (free : List Nat)
    (q : K) : Except GetError Bool :=
  (phfMapGetKeyValue h seed pilots entries free q).map Option.isSome

/-- A `PhfSet` (`quickphf/src/set.rs`): a raw map whose stored values are the
keys themselves. -/
structure PhfSetM (K : Type _) where
  seed : Nat
  pilots : List Nat
  elems : List K
  free : List Nat

/-- `PhfSet::get`: empty sets answer `none`; otherwise the raw lookup's stored
element is returned iff it equals the query. -/
def PhfSetM.get {K : Type _} [DecidableEq K] (h : K → Nat → Nat) (A : PhfSetM K)
    (q : K) : Except GetError (Option K) :=
  if A.elems.isEmpty then .ok none
  else
    (rawMapGet h A.seed A.pilots A.elems A.free q).map fun r =>
      if r = q then some r else none

/-- `PhfSet::contains`: `get(element).is_some()`. -/
def PhfSetM.contains {K : Type _} [DecidableEq K] (h : K → Nat → Nat)
    (A : PhfSetM K) (q : K) : Except GetError Bool :=
  (PhfSetM.get h A q).map Option.isSome

/-- The Boolean membership test the set-algebra iterators branch on
(`self.other.contains(k)`); for the well-formed sets the claims quantify over,
`contains` never fails, and this is its value. -/
def PhfSetM.containsB {K : Type _} [DecidableEq K] (h : K → Nat → Nat)
    (A : PhfSetM K) (q : K) : Bool :=
  match PhfSetM.contains h A q with
  | .ok b => b
  | .error _ => false

/-- The elements yielded by `Difference` (`set.rs`): the `self` iterator
filtered by `!self.other.contains(k)`. -/
def PhfSetM.differenceElems {K : Type _} [DecidableEq K] (h : K → Nat → Nat)
    (A B : PhfSetM K) : List K :=
  A.elems.filter (fun k => ! PhfSetM.containsB h B k)

/-- The elements yielded by `Intersection` (`set.rs`): the `self` iterator
filtered by `self.other.contains(k)`. -/
def PhfSetM.intersectionElems {K : Type _} [DecidableEq K] (h : K → Nat → Nat)
    (A B : PhfSetM K) : List K :=
  A.elems.filter (fun k => PhfSetM.containsB h B k)

/-- The elements yielded by `Union` (`set.rs`):
`self.iter().chain(other.difference(self))`. -/
def PhfSetM.unionElems {K : Type _} [DecidableEq K] (h : K → Nat → Nat)
    (A B : PhfSetM K) : List K :=
  A.elems ++ PhfSetM.differenceElems h B A

/-- The elements yielded by `SymmetricDifference` (`set.rs`):
`self.difference(other).chain(other.difference(self))`. -/
def PhfSetM.symmDiffElems {K : Type _} [DecidableEq K] (h : K → Nat → Nat)
    (A B : PhfSetM K) : List K :=
  PhfSetM.differenceElems h A B ++ PhfSetM.differenceElems h B A

/-! ## The codegen entry points -/

/-- The table shape being generated (`enum Kind`, `quickphf_codegen/src/lib.rs`). -/
inductive Kind where
  | rawMap
  | map
  | set
deriving DecidableEq, Repr

/-- `struct CodeWriter` (`quickphf_codegen/src/lib.rs`): the artifact each
construction entry point returns. -/
structure CodeWriter (K V : Type _) where
  kind : Kind
  phf : Phf
  keys : List K
  values : List V
deriving DecidableEq

/-- `build_raw_map(keys, values)`: runs `generate_phf` on the keys alone and
stores the values untouched; the `keys` field is left empty as in the source. -/
def buildRawMap {K V : Type _} [DecidableEq K] (h : K → Nat → Nat)
    (B M fuel : Nat) (keys : List K) (values : List V) :
    Except PhfError (Option (CodeWriter K V)) :=
  (generatePhfWith h B M keys fuel).map fun o =>
    o.map fun phf => { kind := .rawMap, phf := phf, keys := [], values := values }

/-- `build_map(keys, values)`: runs `generate_phf` on the keys alone and stores
both slices untouched. -/
def buildMap {K V : Type _} [DecidableEq K] (h : K → Nat → Nat)
    (B M fuel : Nat) (keys : List K) (values : List V) :
    Except PhfError (Option (CodeWriter K V)) :=
  (generatePhfWith h B M keys fuel).map fun o =>
    o.map fun phf => { kind := .map, phf := phf, keys := keys, values := values }

/-- `build_set(keys)`: runs `generate_phf` on the keys; the `values` field is
left empty as in the source. -/
def buildSet {K : Type _} [DecidableEq K] (h : K → Nat → Nat)
    (B M fuel : Nat) (keys : List K) :
    Except PhfError (Option (CodeWriter K Unit)) :=
  (generatePhfWith h B M keys fuel).map fun o =>
    o.map fun phf => { kind := .set, phf := phf, keys := keys, values := [] }

/-- Whether a construction entry point actually produced an artifact. -/
def isBuilt {K V : Type _} : Except PhfError (Option (CodeWriter K V)) → Bool
  | .ok (some _) => true
  | _ => false

/-- The fatal error (if any) a construction entry point surfaced. -/
def buildErr {K V : Type _} : Except PhfError (Option (CodeWriter K V)) → Option PhfError
  | .error e => some e
  | _ => none

/-! ## Basic list bookkeeping lemmas -/

lemma getD_set_self {α : Type _} (m : List α) {d : Nat} (v e : α)
    (hd : d < m.length) : (m.set d v).getD d e = v := by
  simp [List.getD_eq_getElem?_getD, List.getElem?_set_self hd]

lemma getD_set_ne {α : Type _} (m : List α) {d j : Nat} (v e : α)
    (h : j ≠ d) : (m.set d v).getD j e = m.getD j e := by
  simp [List.getD_eq_getElem?_getD, List.getElem?_set_ne (Ne.symm h)]

lemma getD_replicate_self {α : Type _} (c : Nat) (v e : α) {j : Nat}
    (hj : j < c) : (List.replicate c v).getD j e = v := by
  simp [List.getD_eq_getElem?_getD, List.getElem?_replicate, hj]

lemma getD_take_lt {α : Type _} (m : List α) {n j : Nat} (e : α) (hj : j < n) :
    (m.take n).getD j e = m.getD j e := by
  simp [List.getD_eq_getElem?_getD, List.getElem?_take, hj]

lemma drop_length_takeWhile {α : Type _} (p : α → Bool) (l : List α) :
    l.drop (l.takeWhile p).length = l.dropWhile p := by
  induction l with
  | nil => rfl
  | cons a l ih =>
    by_cases hp : p a
    · simp [List.takeWhile_cons, List.dropWhile_cons, hp, ih]
    · simp [List.takeWhile_cons, List.dropWhile_cons, hp]

/-! ## Sorting lemmas -/

lemma insertSorted_perm {α : Type _} (le : α → α → Bool) (a : α) :
    ∀ l, (insertSorted le a l).Perm (a :: l) := by
  intro l
  induction l with
  | nil => exact List.Perm.refl _
  | cons b l ih =>
    rw [insertSorted]
    by_cases hab : le a b
    · rw [if_pos hab]
    · rw [if_neg hab]
      exact (ih.cons b).trans (List.Perm.swap a b l)

lemma sortBy_perm {α : Type _} (le : α → α → Bool) :
    ∀ l, (sortBy le l).Perm l := by
  intro l
  induction l with
  | nil => exact List.Perm.refl _
  | cons a l ih =>
    rw [sortBy]
    exact (insertSorted_perm le a _).trans (ih.cons a)

lemma insertSorted_pairwise {α : Type _} {le : α → α → Bool}
    (htrans : ∀ a b c, le a b = true → le b c = true → le a c = true)
    (htot : ∀ a b, (le a b || le b a) = true) (a : α) :
    ∀ l, l.Pairwise (fun x y => le x y = true) →
      (insertSorted le a l).Pairwise (fun x y => le x y = true) := by
  intro l
  induction l with
  | nil => intro _; simp [insertSorted]
  | cons b l ih =>
    intro hl
    obtain ⟨hb, hl'⟩ := List.pairwise_cons.mp hl
    rw [insertSorted]
    by_cases hab : le a b
    · rw [if_pos hab]
      refine List.pairwise_cons.mpr ⟨?_, hl⟩
      intro x hx
      rcases List.mem_cons.mp hx with rfl | hx'
      · exact hab
      · exact htrans a b x hab (hb x hx')
    · rw [if_neg hab]
      refine List.pairwise_cons.mpr ⟨?_, ih hl'⟩
      intro x hx
      rcases List.mem_cons.mp ((insertSorted_perm le a l).mem_iff.mp hx)
        with heqx | hx'
      · subst heqx
        have := htot x b
        simp only [Bool.or_eq_true] at this
        rcases this with hc | hc
        · exact absurd hc hab
        · exact hc
      · exact hb x hx'

lemma sortBy_pairwise {α : Type _} {le : α → α → Bool}
    (htrans : ∀ a b c, le a b = true → le b c = true → le a c = true)
    (htot : ∀ a b, (le a b || le b a) = true) :
    ∀ l, (sortBy le l).Pairwise (fun x y => le x y = true) := by
  intro l
  induction l with
  | nil => simp [sortBy]
  | cons a l ih =>
    rw [sortBy]
    exact insertSorted_pairwise htrans htot a _ ih

/-! ## Counting lemmas -/

lemma cntOcc_le (m : List Nat) : ∀ c a, cntOcc m a c ≤ c := by
  intro c
  induction c with
  | zero => intro a; simp [cntOcc]
  | succ c ih =>
    intro a
    rw [cntOcc]
    have := ih (a + 1)
    split <;> omega

lemma cntOcc_add_cntEmp (m : List Nat) : ∀ c a, cntOcc m a c + cntEmp m a c = c := by
  intro c
  induction c with
  | zero => intro a; simp [cntOcc, cntEmp]
  | succ c ih =>
    intro a
    rw [cntOcc, cntEmp]
    have := ih (a + 1)
    by_cases hx : m.getD a EMPTY = EMPTY
    · rw [if_neg (not_not_intro hx), if_pos hx]; omega
    · rw [if_pos hx, if_neg hx]; omega

lemma cntOcc_split (m : List Nat) : ∀ c1 c2 a,
    cntOcc m a (c1 + c2) = cntOcc m a c1 + cntOcc m (a + c1) c2 := by
  intro c1
  induction c1 with
  | zero => intro c2 a; simp [cntOcc]
  | succ c1 ih =>
    intro c2 a
    have hcomm : c1 + 1 + c2 = (c1 + c2) + 1 := by omega
    rw [hcomm, cntOcc, cntOcc, ih]
    have : a + 1 + c1 = a + (c1 + 1) := by omega
    rw [this]
    omega

lemma cntOcc_congr {m m' : List Nat} : ∀ c a,
    (∀ j, a ≤ j → j < a + c → m.getD j EMPTY = m'.getD j EMPTY) →
    cntOcc m a c = cntOcc m' a c := by
  intro c
  induction c with
  | zero => intro a _; simp [cntOcc]
  | succ c ih =>
    intro a hag
    rw [cntOcc, cntOcc, hag a (le_refl a) (by omega), ih (a + 1) ?_]
    intro j h1 h2
    exact hag j (by omega) (by omega)

lemma cntEmp_congr {m m' : List Nat} : ∀ c a,
    (∀ j, a ≤ j → j < a + c → m.getD j EMPTY = m'.getD j EMPTY) →
    cntEmp m a c = cntEmp m' a c := by
  intro c
  induction c with
  | zero => intro a _; simp [cntEmp]
  | succ c ih =>
    intro a hag
    rw [cntEmp, cntEmp, hag a (le_refl a) (by omega), ih (a + 1) ?_]
    intro j h1 h2
    exact hag j (by omega) (by omega)

lemma cntOcc_replicate_empty (c₀ : Nat) : ∀ c a,
    cntOcc (List.replicate c₀ EMPTY) a c = 0 := by
  intro c
  induction c with
  | zero => intro a; simp [cntOcc]
  | succ c ih =>
    intro a
    rw [cntOcc, ih (a + 1)]
    by_cases ha : a < c₀
    · simp [getD_replicate_self _ _ _ ha]
    · have : (List.replicate c₀ EMPTY).getD a EMPTY = EMPTY := by
        apply List.getD_eq_default
        simpa using by omega
      simp [this]

lemma cntOcc_set_fresh {m : List Nat} {d v : Nat} (hlen : d < m.length)
    (hfresh : m.getD d EMPTY = EMPTY) (hv : v ≠ EMPTY) : ∀ c a,
    a ≤ d → d < a + c →
    cntOcc (m.set d v) a c = cntOcc m a c + 1 := by
  intro c
  induction c with
  | zero => intro a h1 h2; omega
  | succ c ih =>
    intro a h1 h2
    rw [cntOcc, cntOcc]
    by_cases had : a = d
    · subst had
      rw [getD_set_self m v EMPTY hlen]
      have hrest : cntOcc (m.set a v) (a + 1) c = cntOcc m (a + 1) c := by
        apply cntOcc_congr
        intro j hj _
        exact getD_set_ne m v EMPTY (by omega)
      rw [hrest, hfresh, if_pos hv, if_neg (fun hc => hc rfl)]
      omega
    · rw [getD_set_ne m v EMPTY had, ih (a + 1) (by omega) (by omega)]
      omega

lemma cntOcc_set_outside {m : List Nat} {d v : Nat} : ∀ c a,
    (d < a ∨ a + c ≤ d) →
    cntOcc (m.set d v) a c = cntOcc m a c := by
  intro c
  induction c with
  | zero => intro a _; simp [cntOcc]
  | succ c ih =>
    intro a hout
    rw [cntOcc, cntOcc, getD_set_ne m v EMPTY (by omega), ih (a + 1) (by omega)]

lemma cntOcc_pos_least {m : List Nat} : ∀ c a,
    0 < cntOcc m a c →
    ∃ j, a ≤ j ∧ j < a + c ∧ m.getD j EMPTY ≠ EMPTY ∧
      ∀ t, a ≤ t → t < j → m.getD t EMPTY = EMPTY := by
  intro c
  induction c with
  | zero => intro a h; simp [cntOcc] at h
  | succ c ih =>
    intro a hpos
    by_cases ha : m.getD a EMPTY = EMPTY
    · rw [cntOcc, if_neg (not_not_intro ha)] at hpos
      have hpos' : 0 < cntOcc m (a + 1) c := by omega
      obtain ⟨j, h1, h2, h3, h4⟩ := ih (a + 1) hpos'
      exact ⟨j, by omega, by omega, h3, fun t ht1 ht2 => by
        by_cases hta : t = a
        · subst hta; exact ha
        · exact h4 t (by omega) ht2⟩
    · exact ⟨a, le_refl a, by omega, ha, fun t ht1 ht2 => by omega⟩

/-! ## Lemmas about committing a bucket's placements -/

lemma writeAll_length (vta : List (Nat × Nat)) : ∀ m,
    (writeAll m vta).length = m.length := by
  induction vta with
  | nil => intro m; rfl
  | cons p rest ih =>
    intro m
    obtain ⟨i, d⟩ := p
    rw [writeAll, ih]
    simp

lemma writeAll_getD_notMem (vta : List (Nat × Nat)) : ∀ m (d e : Nat),
    (∀ p ∈ vta, p.2 ≠ d) →
    (writeAll m vta).getD d e = m.getD d e := by
  induction vta with
  | nil => intro m d e _; rfl
  | cons p rest ih =>
    intro m d e hne
    obtain ⟨i, d'⟩ := p
    rw [writeAll, ih _ _ _ (fun p hp => hne p (by simp [hp]))]
    exact getD_set_ne m i e (fun hh => (hne (i, d') (by simp)) hh.symm)

lemma writeAll_getD_mem (vta : List (Nat × Nat)) : ∀ m {i d : Nat},
    (i, d) ∈ vta → (vta.map Prod.snd).Nodup → d < m.length →
    (writeAll m vta).getD d EMPTY = i := by
  induction vta with
  | nil => intro m i d hmem; simp at hmem
  | cons p rest ih =>
    intro m i d hmem hnd hlt
    obtain ⟨i', d'⟩ := p
    rw [List.map_cons, List.nodup_cons] at hnd
    rcases List.mem_cons.mp hmem with heq | htail
    · obtain ⟨rfl, rfl⟩ := Prod.mk.injEq .. ▸ heq
      rw [writeAll]
      rw [writeAll_getD_notMem]
      · exact getD_set_self m i EMPTY hlt
      · intro q hq hq2
        exact hnd.1 (List.mem_map.mpr ⟨q, hq, hq2⟩)
    · rw [writeAll]
      exact ih _ htail hnd.2 (by simpa using hlt)

lemma writeAll_cntOcc (vta : List (Nat × Nat)) : ∀ m,
    (∀ p ∈ vta, m.getD p.2 EMPTY = EMPTY ∧ p.1 ≠ EMPTY ∧ p.2 < m.length) →
    (vta.map Prod.snd).Nodup →
    cntOcc (writeAll m vta) 0 (writeAll m vta).length =
      cntOcc m 0 m.length + vta.length := by
  induction vta with
  | nil => intro m _ _; rfl
  | cons p rest ih =>
    intro m hfresh hnd
    obtain ⟨i, d⟩ := p
    rw [List.map_cons, List.nodup_cons] at hnd
    obtain ⟨hfd, hiv, hdlt⟩ := hfresh (i, d) (by simp)
    rw [writeAll]
    have hlen : (m.set d i).length = m.length := by simp
    have hr := ih (m.set d i) ?_ hnd.2
    · rw [hr, hlen, cntOcc_set_fresh hdlt hfd hiv m.length 0 (by omega) (by omega)]
      simp [Nat.add_assoc, Nat.add_comm 1 rest.length]
    · intro q hq
      obtain ⟨h1, h2, h3⟩ := hfresh q (by simp [hq])
      refine ⟨?_, h2, by simpa using h3⟩
      rw [getD_set_ne m i EMPTY ?_]
      · exact h1
      · intro hc
        exact hnd.1 (List.mem_map.mpr ⟨q, hq, hc⟩)

/-! ## Lemmas about the pilot search -/

lemma computeDests_spec {m : List Nat} {M ph : Nat} :
    ∀ {grp : List HashedEntry} {vta : List (Nat × Nat)},
      computeDests m M ph grp = some vta →
      vta = grp.map (fun e => (e.idx, getIndex e.hash ph M)) ∧
      ∀ p ∈ vta, m.getD p.2 EMPTY = EMPTY := by
  intro grp
  induction grp with
  | nil =>
    intro vta h
    rw [computeDests] at h
    cases h
    exact ⟨rfl, by simp⟩
  | cons e rest ih =>
    intro vta h
    rw [computeDests] at h
    by_cases hocc : m.getD (getIndex e.hash ph M) EMPTY ≠ EMPTY
    · rw [if_pos hocc] at h
      exact absurd h (by simp)
    · rw [if_neg hocc] at h
      push_neg at hocc
      cases hcd : computeDests m M ph rest with
      | none => rw [hcd] at h; simp at h
      | some vta' =>
        rw [hcd] at h
        simp only [Option.map_some'] at h
        obtain ⟨h1, h2⟩ := ih hcd
        cases h
        constructor
        · simp [h1]
        · intro p hp
          rcases List.mem_cons.mp hp with rfl | htail
          · exact hocc
          · exact h2 p htail

lemma nodup_of_sorted_noAdj :
    ∀ (s : List (Nat × Nat)), s.Pairwise (fun a b => a.2 ≤ b.2) →
      hasDupDest s = false → (s.map Prod.snd).Nodup := by
  intro s
  induction s with
  | nil => intro _ _; simp
  | cons p rest ih =>
    intro hp hd
    cases rest with
    | nil => simp
    | cons q rest' =>
      rw [hasDupDest, Bool.or_eq_false_iff] at hd
      obtain ⟨hpq, hd'⟩ := hd
      have hpq' : p.2 ≠ q.2 := by simpa using hpq
      obtain ⟨hp1, hp2⟩ := List.pairwise_cons.mp hp
      rw [List.map_cons, List.nodup_cons]
      refine ⟨?_, ih hp2 hd'⟩
      intro hmem
      obtain ⟨b, hb, hb2⟩ := List.mem_map.mp hmem
      rcases List.mem_cons.mp hb with rfl | hb'
      · exact hpq' hb2.symm
      · obtain ⟨hq1, _⟩ := List.pairwise_cons.mp hp2
        have h1 : p.2 ≤ q.2 := hp1 q (by simp)
        have h2 : q.2 ≤ b.2 := hq1 b hb'
        omega

lemma nodup_dests_of_pilot_check {vta : List (Nat × Nat)}
    (hd : hasDupDest (sortBy (fun a b => a.2 ≤ b.2) vta) = false) :
    (vta.map Prod.snd).Nodup := by
  have hperm : (sortBy (fun a b => a.2 ≤ b.2) vta).Perm vta :=
    sortBy_perm _ vta
  have hsorted := @sortBy_pairwise (Nat × Nat)
    (fun a b => decide (a.2 ≤ b.2))
    (fun a b c hab hbc => by
      simp only [decide_eq_true_eq] at hab hbc ⊢; omega)
    (fun a b => by
      simp only [Bool.or_eq_true, decide_eq_true_eq]; omega)
    vta
  have hsorted' : (sortBy (fun a b => a.2 ≤ b.2) vta).Pairwise
      (fun a b => a.2 ≤ b.2) :=
    hsorted.imp (fun hab => by simpa using hab)
  have := nodup_of_sorted_noAdj _ hsorted' hd
  exact ((hperm.map Prod.snd).nodup_iff).mp this

lemma findPilotAux_spec {m : List Nat} {M : Nat} {grp : List HashedEntry} :
    ∀ {fuel p0 p : Nat} {vta : List (Nat × Nat)},
      findPilotAux m M grp fuel p0 = some (p, vta) →
      computeDests m M (hashPilotValue p) grp = some vta ∧
      hasDupDest (sortBy (fun a b => a.2 ≤ b.2) vta) = false := by
  intro fuel
  induction fuel with
  | zero => intro p0 p vta h; rw [findPilotAux] at h; cases h
  | succ fuel ih =>
    intro p0 p vta h
    rw [findPilotAux] at h
    split at h
    · exact ih h
    next vta' hcd =>
      split at h
      · exact ih h
      next hdup =>
        cases h
        exact ⟨hcd, by simpa using hdup⟩

/-! ## The placement invariant -/

lemma placeBuckets_spec {M : Nat} (hM : 0 < M) :
    ∀ (bs : List (Nat × List HashedEntry)) (pilots m pilots' m' : List Nat),
      m.length = M →
      (∀ p ∈ bs, p.1 < pilots.length) →
      (∀ p ∈ bs, ∀ e ∈ p.2, e.idx ≠ EMPTY) →
      (bs.map Prod.fst).Nodup →
      placeBuckets M bs pilots m = some (pilots', m') →
      pilots'.length = pilots.length ∧ m'.length = m.length ∧
      (∀ d, m.getD d EMPTY ≠ EMPTY → m'.getD d EMPTY = m.getD d EMPTY) ∧
      (∀ j, j ∉ bs.map Prod.fst → pilots'.getD j 0 = pilots.getD j 0) ∧
      (∀ p ∈ bs, ∀ e ∈ p.2,
        m'.getD (getIndex e.hash (hashPilotValue (pilots'.getD p.1 0)) M) EMPTY
          = e.idx) ∧
      cntOcc m' 0 M = cntOcc m 0 M + (bs.map (fun p => p.2.length)).sum := by
  intro bs
  induction bs with
  | nil =>
    intro pilots m pilots' m' hmlen _ _ _ hpb
    rw [placeBuckets] at hpb
    cases hpb
    exact ⟨rfl, rfl, fun d _ => rfl, fun j _ => rfl, by simp, by simp⟩
  | cons b rest ih =>
    intro pilots m pilots' m' hmlen hblt hidx hnd hpb
    obtain ⟨bidx, grp⟩ := b
    rw [placeBuckets] at hpb
    cases hfp : findPilotAux m M grp 65536 0 with
    | none => rw [hfp] at hpb; cases hpb
    | some pv =>
      obtain ⟨p, vta⟩ := pv
      rw [hfp] at hpb
      obtain ⟨hcd, hdup⟩ := findPilotAux_spec hfp
      obtain ⟨hvta, hfresh⟩ := computeDests_spec hcd
      have hvnd : (vta.map Prod.snd).Nodup := nodup_dests_of_pilot_check hdup
      have hdlt : ∀ q ∈ vta, q.2 < M := by
        intro q hq
        rw [hvta] at hq
        obtain ⟨e, _, rfl⟩ := List.mem_map.mp hq
        exact Nat.mod_lt _ hM
      have hvEmpty : ∀ q ∈ vta, q.1 ≠ EMPTY := by
        intro q hq
        rw [hvta] at hq
        obtain ⟨e, he, rfl⟩ := List.mem_map.mp hq
        exact hidx (bidx, grp) (by simp) e he
      rw [List.map_cons, List.nodup_cons] at hnd
      have hm1len : (writeAll m vta).length = m.length := writeAll_length vta m
      obtain ⟨c1, c2, c3, c4, c5, c6⟩ := ih (pilots.set bidx p) (writeAll m vta)
        pilots' m' (by rw [hm1len, hmlen])
        (fun q hq => by simpa using hblt q (by simp [hq]))
        (fun q hq => hidx q (by simp [hq])) hnd.2 hpb
      have hbidxlt : bidx < pilots.length := hblt (bidx, grp) (by simp)
      have hpreserve : ∀ d, m.getD d EMPTY ≠ EMPTY →
          (writeAll m vta).getD d EMPTY = m.getD d EMPTY := by
        intro d hdne
        apply writeAll_getD_notMem
        intro q hq hq2
        exact hdne (hq2 ▸ hfresh q hq)
      refine ⟨by rw [c1]; simp, by rw [c2, hm1len], ?_, ?_, ?_, ?_⟩
      · intro d hdne
        rw [c3 d (by rw [hpreserve d hdne]; exact hdne), hpreserve d hdne]
      · intro j hj
        rw [List.map_cons, List.mem_cons] at hj
        push_neg at hj
        rw [c4 j hj.2, getD_set_ne pilots p 0 hj.1]
      · rw [List.forall_mem_cons]
        refine ⟨?_, fun q hq e he => c5 q hq e he⟩
        dsimp only
        intro e he
        have hpil : pilots'.getD bidx 0 = p := by
          rw [c4 bidx hnd.1, getD_set_self pilots p 0 hbidxlt]
        rw [hpil]
        have hdm : (e.idx, getIndex e.hash (hashPilotValue p) M) ∈ vta := by
          rw [hvta]
          exact List.mem_map.mpr ⟨e, he, rfl⟩
        have hw : (writeAll m vta).getD
            (getIndex e.hash (hashPilotValue p) M) EMPTY = e.idx :=
          writeAll_getD_mem vta m hdm hvnd (by rw [hmlen]; exact Nat.mod_lt _ hM)
        rw [c3 _ (by rw [hw]; exact hidx (bidx, grp) (by simp) e he), hw]
      · have hocc1 : cntOcc (writeAll m vta) 0 M = cntOcc m 0 M + vta.length := by
          have := writeAll_cntOcc vta m
            (fun q hq => ⟨hfresh q hq, hvEmpty q hq, by rw [hmlen]; exact hdlt q hq⟩)
            hvnd
          rw [hm1len, hmlen] at this
          exact this
        rw [c6, hocc1, hvta]
        simp [Nat.add_assoc]

/-! ## Lemmas about hashing and sorting the entries -/

lemma hashEntriesAux_get? {K : Type _} (h : K → Nat → Nat) (seed B : Nat) :
    ∀ (l : List K) (i j : Nat),
      (hashEntriesAux h seed B i l).get? j =
        (l.get? j).map fun k =>
          { idx := i + j, hash := h k seed, bucket := getBucket (h k seed) B } := by
  intro l
  induction l with
  | nil => intro i j; simp [hashEntriesAux]
  | cons k rest ih =>
    intro i j
    cases j with
    | zero => simp [hashEntriesAux]
    | succ j =>
      rw [hashEntriesAux]
      simp only [List.get?_cons_succ]
      have h2 : i + (j + 1) = (i + 1) + j := by omega
      rw [h2, ih (i + 1) j]

lemma hashEntriesAux_length {K : Type _} (h : K → Nat → Nat) (seed B : Nat) :
    ∀ (l : List K) (i : Nat), (hashEntriesAux h seed B i l).length = l.length := by
  intro l
  induction l with
  | nil => intro i; rfl
  | cons k rest ih => intro i; rw [hashEntriesAux]; simp [ih]

lemma hashEntriesAux_map_idx {K : Type _} (h : K → Nat → Nat) (seed B : Nat) :
    ∀ (l : List K) (i : Nat),
      (hashEntriesAux h seed B i l).map HashedEntry.idx = List.range' i l.length := by
  intro l
  induction l with
  | nil => intro i; rfl
  | cons k rest ih =>
    intro i
    rw [hashEntriesAux]
    simp only [List.map_cons, ih, List.length_cons]
    rw [List.range'_succ]

lemma mem_hashEntries {K : Type _} {h : K → Nat → Nat} {seed B : Nat}
    {l : List K} {j : Nat} {k : K} (hj : l.get? j = some k) :
    ({ idx := j, hash := h k seed, bucket := getBucket (h k seed) B } : HashedEntry)
      ∈ hashEntries h seed B l := by
  rw [hashEntries]
  have := hashEntriesAux_get? h seed B l 0 j
  rw [hj] at this
  simp only [Option.map_some'] at this
  have hz : (0 : Nat) + j = j := by omega
  rw [hz] at this
  exact List.mem_iff_get?.mpr ⟨j, this⟩

lemma hashEntries_mem_spec {K : Type _} {h : K → Nat → Nat} {seed B : Nat}
    {l : List K} {e : HashedEntry} (he : e ∈ hashEntries h seed B l) :
    ∃ k, l.get? e.idx = some k ∧ e.hash = h k seed ∧
      e.bucket = getBucket (h k seed) B := by
  rw [hashEntries] at he
  obtain ⟨j, hj⟩ := List.mem_iff_get?.mp he
  rw [hashEntriesAux_get? h seed B l 0 j] at hj
  cases hk : l.get? j with
  | none => rw [hk] at hj; cases hj
  | some k =>
    rw [hk] at hj
    simp only [Option.map_some'] at hj
    cases hj
    exact ⟨k, by simpa using hk, rfl, rfl⟩

lemma hashEntries_nodup_idx {K : Type _} (h : K → Nat → Nat) (seed B : Nat)
    (l : List K) : ((hashEntries h seed B l).map HashedEntry.idx).Nodup := by
  rw [hashEntries, hashEntriesAux_map_idx]
  exact List.nodup_range' 0 l.length

lemma entryLE_trans (a b c : HashedEntry) (hab : entryLE a b = true)
    (hbc : entryLE b c = true) : entryLE a c = true := by
  simp only [entryLE, Bool.or_eq_true, Bool.and_eq_true, decide_eq_true_eq,
    beq_iff_eq] at hab hbc ⊢
  omega

lemma entryLE_total (a b : HashedEntry) : (entryLE a b || entryLE b a) = true := by
  simp only [entryLE, Bool.or_eq_true, Bool.and_eq_true, decide_eq_true_eq,
    beq_iff_eq]
  omega

lemma sorted_entries_pairwise {l : List HashedEntry} :
    (sortBy entryLE l).Pairwise (fun a b => entryLE a b = true) :=
  sortBy_pairwise entryLE_trans entryLE_total l

lemma sorted_entries_bucket_mono {l : List HashedEntry} :
    (sortBy entryLE l).Pairwise (fun a b => a.bucket ≤ b.bucket) := by
  refine sorted_entries_pairwise.imp ?_
  intro a b hab
  simp only [entryLE, Bool.or_eq_true, Bool.and_eq_true, decide_eq_true_eq,
    beq_iff_eq] at hab
  omega

lemma sorted_chain_pairwise :
    ∀ (l : List HashedEntry), l.Pairwise (fun a b => entryLE a b = true) →
      l.Chain' (fun a b => ¬(a.hash = b.hash ∧ a.bucket = b.bucket)) →
      l.Pairwise (fun a b => ¬(a.hash = b.hash ∧ a.bucket = b.bucket)) := by
  intro l
  induction l with
  | nil => intro _ _; exact List.Pairwise.nil
  | cons a rest ih =>
    intro hp hc
    obtain ⟨hp1, hp2⟩ := List.pairwise_cons.mp hp
    rw [List.pairwise_cons]
    cases rest with
    | nil => exact ⟨by simp, List.Pairwise.nil⟩
    | cons b rest' =>
      rw [List.chain'_cons] at hc
      obtain ⟨hcab, hc'⟩ := hc
      refine ⟨?_, ih hp2 hc'⟩
      have hlab : entryLE a b = true := hp1 b (by simp)
      have hstrict : a.bucket < b.bucket ∨
          (a.bucket = b.bucket ∧ a.hash < b.hash) := by
        simp only [entryLE, Bool.or_eq_true, Bool.and_eq_true, decide_eq_true_eq,
          beq_iff_eq] at hlab
        rcases hlab with hlt | ⟨hbe, hle⟩
        · exact Or.inl hlt
        · refine Or.inr ⟨hbe, ?_⟩
          rcases Nat.lt_or_ge a.hash b.hash with hlt | hge
          · exact hlt
          · exact absurd ⟨by omega, hbe⟩ hcab
      intro x hx
      rcases List.mem_cons.mp hx with rfl | hx'
      · exact hcab
      · obtain ⟨hq1, _⟩ := List.pairwise_cons.mp hp2
        have hlbx : entryLE b x = true := hq1 x hx'
        simp only [entryLE, Bool.or_eq_true, Bool.and_eq_true, decide_eq_true_eq,
          beq_iff_eq] at hlbx
        intro hcoll
        omega

/-! ## Lemmas about bucket formation -/

lemma dropWhile_bucket_lb :
    ∀ (l : List HashedEntry) (idx : Nat),
      l.Pairwise (fun a b => a.bucket ≤ b.bucket) →
      (∀ e ∈ l, idx ≤ e.bucket) →
      ∀ e ∈ l.dropWhile (fun e => e.bucket == idx), idx + 1 ≤ e.bucket := by
  intro l
  induction l with
  | nil => intro idx _ _ e he; simp at he
  | cons a rest ih =>
    intro idx hp hlb
    obtain ⟨hp1, hp2⟩ := List.pairwise_cons.mp hp
    rw [List.dropWhile_cons]
    by_cases hab : a.bucket = idx
    · rw [if_pos (by simpa using hab)]
      exact ih idx hp2 (fun e he => hlb e (by simp [he]))
    · rw [if_neg (by simpa using hab)]
      intro e he
      have ha : idx + 1 ≤ a.bucket := by
        have := hlb a (by simp)
        omega
      rcases List.mem_cons.mp he with rfl | he'
      · exact ha
      · have := hp1 e he'
        omega

lemma formBucketsAux_spec :
    ∀ (B1 idx : Nat) (l : List HashedEntry),
      l.Pairwise (fun a b => a.bucket ≤ b.bucket) →
      (∀ e ∈ l, idx ≤ e.bucket) →
      (∀ e ∈ l, e.bucket < idx + B1) →
      ((formBucketsAux B1 idx l).map Prod.snd).flatten = l ∧
      (formBucketsAux B1 idx l).map Prod.fst = List.range' idx B1 ∧
      ∀ p ∈ formBucketsAux B1 idx l, ∀ e ∈ p.2, e.bucket = p.1 := by
  intro B1
  induction B1 with
  | zero =>
    intro idx l _ hlb hub
    have hnil : l = [] := by
      refine List.eq_nil_iff_forall_not_mem.mpr fun e he => ?_
      have := hlb e he
      have := hub e he
      omega
    subst hnil
    exact ⟨rfl, rfl, by simp [formBucketsAux]⟩
  | succ B1 ih =>
    intro idx l hp hlb hub
    rw [formBucketsAux]
    have hdrop : l.drop (l.takeWhile (fun e => e.bucket == idx)).length =
        l.dropWhile (fun e => e.bucket == idx) :=
      drop_length_takeWhile _ l
    rw [hdrop]
    have hrest_pw : (l.dropWhile (fun e => e.bucket == idx)).Pairwise
        (fun a b => a.bucket ≤ b.bucket) :=
      List.Pairwise.sublist (List.dropWhile_sublist _) hp
    have hrest_lb := dropWhile_bucket_lb l idx hp hlb
    have hrest_ub : ∀ e ∈ l.dropWhile (fun e => e.bucket == idx),
        e.bucket < (idx + 1) + B1 := by
      intro e he
      have := hub e ((List.dropWhile_sublist _).subset he)
      omega
    obtain ⟨ih1, ih2, ih3⟩ := ih (idx + 1) _ hrest_pw hrest_lb hrest_ub
    refine ⟨?_, ?_, ?_⟩
    · simp only [List.map_cons, List.flatten_cons, ih1]
      exact List.takeWhile_append_dropWhile _ l
    · simp only [List.map_cons, ih2]
      rw [List.range'_succ]
    · intro p hp' e he
      rcases List.mem_cons.mp hp' with rfl | htail
      · have := List.mem_takeWhile_imp he
        simpa using this
      · exact ih3 p htail e he

/-! ## Lemmas about the collision scan -/

lemma scanCollisions_ok_true {K : Type _} [DecidableEq K] {entries : List K} :
    ∀ {l : List HashedEntry}, scanCollisions entries l = .ok true →
      l.Chain' (fun a b => ¬(a.hash = b.hash ∧ a.bucket = b.bucket)) := by
  intro l
  induction l with
  | nil => intro _; exact List.chain'_nil
  | cons e0 tail ih =>
    intro hscan
    cases tail with
    | nil => exact List.chain'_singleton e0
    | cons e1 rest =>
      rw [scanCollisions] at hscan
      by_cases hcoll : e0.hash = e1.hash ∧ e0.bucket = e1.bucket
      · rw [if_pos hcoll] at hscan
        by_cases hk : entries.get? e0.idx = entries.get? e1.idx
        · rw [if_pos hk] at hscan; cases hscan
        · rw [if_neg hk] at hscan; cases hscan
      · rw [if_neg hcoll] at hscan
        exact List.chain'_cons.mpr ⟨hcoll, ih hscan⟩

lemma scanCollisions_error {K : Type _} [DecidableEq K] {entries : List K} :
    ∀ {l : List HashedEntry} {er : PhfError},
      scanCollisions entries l = .error er →
      ∃ e0 e1 l1 l2, l = l1 ++ e0 :: e1 :: l2 ∧
        er = .duplicateKeys e0.idx e1.idx ∧
        e0.hash = e1.hash ∧ e0.bucket = e1.bucket ∧
        entries.get? e0.idx = entries.get? e1.idx := by
  intro l
  induction l with
  | nil => intro er h; simp [scanCollisions] at h
  | cons e0 tail ih =>
    intro er hscan
    cases tail with
    | nil => simp [scanCollisions] at hscan
    | cons e1 rest =>
      rw [scanCollisions] at hscan
      by_cases hcoll : e0.hash = e1.hash ∧ e0.bucket = e1.bucket
      · rw [if_pos hcoll] at hscan
        by_cases hk : entries.get? e0.idx = entries.get? e1.idx
        · rw [if_pos hk] at hscan
          cases hscan
          exact ⟨e0, e1, [], rest, rfl, rfl, hcoll.1, hcoll.2, hk⟩
        · rw [if_neg hk] at hscan; cases hscan
      · rw [if_neg hcoll] at hscan
        obtain ⟨f0, f1, l1, l2, heq, her, h1, h2, h3⟩ := ih hscan
        exact ⟨f0, f1, e0 :: l1, l2, by rw [heq]; rfl, her, h1, h2, h3⟩

/-! ## The compaction invariant -/

lemma cntOcc_eq_zero_of_empty {m : List Nat} : ∀ c a,
    (∀ t, a ≤ t → t < a + c → m.getD t EMPTY = EMPTY) →
    cntOcc m a c = 0 := by
  intro c
  induction c with
  | zero => intro a _; rfl
  | succ c ih =>
    intro a hemp
    rw [cntOcc, if_neg (not_not_intro (hemp a (le_refl a) (by omega))),
      ih (a + 1) (fun t h1 h2 => hemp t (by omega) (by omega))]

lemma cntOcc_pos_of_occupied {m : List Nat} : ∀ c a {j : Nat},
    a ≤ j → j < a + c → m.getD j EMPTY ≠ EMPTY →
    0 < cntOcc m a c := by
  intro c
  induction c with
  | zero => intro a j h1 h2 _; omega
  | succ c ih =>
    intro a j h1 h2 hocc
    rw [cntOcc]
    by_cases haj : a = j
    · subst haj
      rw [if_pos hocc]
      omega
    · have := @ih (a + 1) j (by omega) (by omega) hocc
      omega

lemma nextBack_spec {m : List Nat} : ∀ (fuel b j : Nat),
    b ≤ j → j - b ≤ fuel →
    (∀ t, b ≤ t → t < j → m.getD t EMPTY = EMPTY) →
    m.getD j EMPTY ≠ EMPTY →
    nextBack m fuel b = j := by
  intro fuel
  induction fuel with
  | zero =>
    intro b j hbj hf _ _
    have : b = j := by omega
    subst this
    rfl
  | succ fuel ih =>
    intro b j hbj hf hemp hocc
    rw [nextBack]
    by_cases hb : b = j
    · subst hb
      rw [if_neg hocc]
    · rw [if_pos (hemp b (le_refl b) (by omega))]
      exact ih (b + 1) j (by omega) (by omega)
        (fun t h1 h2 => hemp t (by omega) h2) hocc

lemma compactLoop_spec {n MM : Nat} (hnM : n ≤ MM) :
    ∀ (c front : Nat) (m fr mF frF : List Nat) (back : Nat),
      m.length = MM →
      fr.length = MM - n →
      front + c = n →
      n ≤ back →
      cntEmp m front c = cntOcc m back (MM - back) →
      compactLoop n c front m fr back = (mF, frF) →
      mF.length = m.length ∧ frF.length = fr.length ∧
      (∀ j, j < front ∨ n ≤ j → mF.getD j EMPTY = m.getD j EMPTY) ∧
      (∀ j, j < back - n → frF.getD j 0 = fr.getD j 0) ∧
      (∀ j, front ≤ j → j < n → m.getD j EMPTY ≠ EMPTY →
        mF.getD j EMPTY = m.getD j EMPTY) ∧
      (∀ b', back ≤ b' → b' < MM → m.getD b' EMPTY ≠ EMPTY →
        ∃ f', front ≤ f' ∧ f' < n ∧ frF.getD (b' - n) 0 = f' ∧
          mF.getD f' EMPTY = m.getD b' EMPTY ∧ m.getD f' EMPTY = EMPTY) ∧
      (∀ j, j < fr.length → (frF.getD j 0 = fr.getD j 0 ∨ frF.getD j 0 < n)) := by
  intro c
  induction c with
  | zero =>
    intro front m fr mF frF back hmlen hfrlen hfc hback hcnt heq
    rw [compactLoop] at heq
    cases heq
    refine ⟨rfl, rfl, fun j _ => rfl, fun j _ => rfl, fun j _ _ _ => rfl,
      ?_, fun j _ => Or.inl rfl⟩
    intro b' hb1 hb2 hocc
    exfalso
    have hpos : 0 < cntOcc m back (MM - back) :=
      cntOcc_pos_of_occupied (MM - back) back hb1 (by omega) hocc
    rw [← hcnt, cntEmp] at hpos
    omega
  | succ c ih =>
    intro front m fr mF frF back hmlen hfrlen hfc hback hcnt heq
    rw [compactLoop] at heq
    by_cases hfe : m.getD front EMPTY = EMPTY
    · -- the front slot is empty: pull the next occupied back slot forward
      rw [if_neg (not_not_intro hfe)] at heq
      have hcnt1 : cntEmp m front (c + 1) = 1 + cntEmp m (front + 1) c := by
        rw [cntEmp, if_pos hfe]
      have hpos : 0 < cntOcc m back (MM - back) := by omega
      obtain ⟨j0, hj1, hj2, hj3, hj4⟩ := cntOcc_pos_least (MM - back) back hpos
      have hbackM : back < MM := by
        by_cases hbm : back < MM
        · exact hbm
        · exfalso
          have : MM - back = 0 := by omega
          rw [this] at hpos
          simp [cntOcc] at hpos
      have hj0M : j0 < MM := by omega
      have hnb : nextBack m m.length back = j0 :=
        nextBack_spec m.length back j0 hj1 (by omega) hj4 hj3
      rw [hnb] at heq
      have hfrontn : front < n := by omega
      have hfrontM : front < m.length := by omega
      have hj0fr : j0 - n < fr.length := by omega
      have hm1len : (m.set front (m.getD j0 EMPTY)).length = MM := by
        simpa using hmlen
      have hfr1len : (fr.set (j0 - n) front).length = MM - n := by
        simpa using hfrlen
      have hm1agree : ∀ j, j ≠ front →
          (m.set front (m.getD j0 EMPTY)).getD j EMPTY = m.getD j EMPTY :=
        fun j hj => getD_set_ne m _ EMPTY hj
      have hcnt2 : cntEmp (m.set front (m.getD j0 EMPTY)) (front + 1) c =
          cntOcc (m.set front (m.getD j0 EMPTY)) (j0 + 1) (MM - (j0 + 1)) := by
        have e1 : cntEmp (m.set front (m.getD j0 EMPTY)) (front + 1) c =
            cntEmp m (front + 1) c :=
          cntEmp_congr c (front + 1)
            (fun j h1 _ => hm1agree j (by omega))
        have e2 : cntOcc (m.set front (m.getD j0 EMPTY)) (j0 + 1) (MM - (j0 + 1)) =
            cntOcc m (j0 + 1) (MM - (j0 + 1)) :=
          cntOcc_congr (MM - (j0 + 1)) (j0 + 1)
            (fun j h1 _ => hm1agree j (by omega))
        have hsplit : cntOcc m back (MM - back) =
            cntOcc m back (j0 - back) + cntOcc m j0 (MM - j0) := by
          have harith : MM - back = (j0 - back) + (MM - j0) := by omega
          rw [harith, cntOcc_split]
          have : back + (j0 - back) = j0 := by omega
          rw [this]
        have hzero : cntOcc m back (j0 - back) = 0 :=
          cntOcc_eq_zero_of_empty (j0 - back) back
            (fun t h1 h2 => hj4 t h1 (by omega))
        have hone : cntOcc m j0 (MM - j0) = 1 + cntOcc m (j0 + 1) (MM - (j0 + 1)) := by
          have harith : MM - j0 = (MM - (j0 + 1)) + 1 := by omega
          rw [harith, cntOcc, if_pos hj3]
        rw [e1, e2]
        omega
      obtain ⟨i1, i2, i3, i4, i5, i6, i7⟩ := ih (front + 1)
        (m.set front (m.getD j0 EMPTY)) (fr.set (j0 - n) front) mF frF (j0 + 1)
        hm1len hfr1len (by omega) (by omega) hcnt2 heq
      have hi2' : frF.length = fr.length := by
        rw [i2]; simp
      refine ⟨by rw [i1]; simp, hi2', ?_, ?_, ?_, ?_, ?_⟩
      · intro j hj
        rw [i3 j (by omega), hm1agree j (by omega)]
      · intro j hj
        rw [i4 j (by omega), getD_set_ne fr front 0 (by omega)]
      · intro j hj1' hj2' hocc'
        by_cases hjf : j = front
        · exact absurd (hjf ▸ hfe) hocc'
        · rw [i5 j (by omega) hj2' (by rw [hm1agree j hjf]; exact hocc'),
            hm1agree j hjf]
      · intro b' hb1' hb2' hocc'
        rcases Nat.lt_trichotomy b' j0 with hlt | heqb | hgt
        · exact absurd (hj4 b' hb1' hlt) hocc'
        · subst heqb
          refine ⟨front, le_refl front, hfrontn, ?_, ?_, hfe⟩
          · rw [i4 (b' - n) (by omega), getD_set_self fr front 0 hj0fr]
          · rw [i3 front (by omega), getD_set_self m _ EMPTY hfrontM]
        · obtain ⟨f', hf1, hf2, hf3, hf4, hf5⟩ := i6 b' (by omega) hb2'
            (by rw [hm1agree b' (by omega)]; exact hocc')
          refine ⟨f', by omega, hf2, hf3, ?_, ?_⟩
          · rw [hf4, hm1agree b' (by omega)]
          · rw [← hm1agree f' (by omega)]
            exact hf5
      · intro j hj
        rcases i7 j (by rw [hfr1len, ← hfrlen]; exact hj) with heq' | hlt'
        · by_cases hjj : j = j0 - n
          · subst hjj
            rw [heq', getD_set_self fr front 0 hj0fr]
            exact Or.inr hfrontn
          · rw [heq', getD_set_ne fr front 0 hjj]
            exact Or.inl rfl
        · exact Or.inr hlt'
    · -- the front slot is already occupied: skip it
      rw [if_pos hfe] at heq
      have hcnt1 : cntEmp m (front + 1) c = cntOcc m back (MM - back) := by
        rw [← hcnt, cntEmp, if_neg hfe]
        omega
      obtain ⟨i1, i2, i3, i4, i5, i6, i7⟩ := ih (front + 1) m fr mF frF back
        hmlen hfrlen (by omega) hback hcnt1 heq
      refine ⟨i1, i2, ?_, i4, ?_, ?_, i7⟩
      · intro j hj
        exact i3 j (by omega)
      · intro j hj1' hj2' hocc'
        by_cases hjf : j = front
        · subst hjf
          exact i3 j (by omega)
        · exact i5 j (by omega) hj2' hocc'
      · intro b' hb1' hb2' hocc'
        obtain ⟨f', hf1, hf2, hf3, hf4, hf5⟩ := i6 b' hb1' hb2' hocc'
        exact ⟨f', by omega, hf2, hf3, hf4, hf5⟩

/-! ## The master correctness lemma for a successful construction attempt -/

lemma tryGeneratePhf_some_spec {K : Type _} [DecidableEq K]
    {h : K → Nat → Nat} {B M seed : Nat} {entries : List K} {phf : Phf}
    (hB : 0 < B) (hM : 0 < M)
    (hsucc : tryGeneratePhf h B M seed entries = .ok (some phf)) :
    phf.seed = seed ∧
    phf.pilotsTable.length = B ∧
    phf.map.length = entries.length ∧
    entries.length ≤ M ∧
    phf.free.length = M - entries.length ∧
    entries.length < EMPTY ∧
    (∀ j, j < phf.free.length →
      phf.free.getD j 0 = 0 ∨ phf.free.getD j 0 < entries.length) ∧
    (∀ i k, entries.get? i = some k →
      phfSlot h phf entries.length k < entries.length ∧
      phf.map.getD (phfSlot h phf entries.length k) EMPTY = i) ∧
    (∀ s, s < entries.length →
      ∃ i k, entries.get? i = some k ∧ phfSlot h phf entries.length k = s) := by
  simp only [tryGeneratePhf] at hsucc
  set S := sortBy entryLE (hashEntries h seed B entries) with hSdef
  split at hsucc
  · exact absurd hsucc (by simp)
  · exact absurd hsucc (by simp)
  next hscan =>
    split at hsucc
    case isFalse => exact absurd hsucc (by simp)
    case isTrue hlt =>
      split at hsucc
      case _ => exact absurd hsucc (by simp)
      case _ pilots m hpb =>
        simp only [Except.ok.injEq, Option.some.injEq] at hsucc
        set res := compactLoop entries.length entries.length 0 m
          (List.replicate (M - entries.length) 0) entries.length with hres
        have hphf : phf = Phf.mk seed pilots (res.1.take entries.length) res.2 :=
          hsucc.symm
        have hseed : phf.seed = seed := by rw [hphf]
        have hpilots : phf.pilotsTable = pilots := by rw [hphf]
        have hmapc : phf.map = res.1.take entries.length := by rw [hphf]
        have hfree : phf.free = res.2 := by rw [hphf]
        -- properties of the sorted hashed entries
        have hperm : S.Perm (hashEntries h seed B entries) :=
          sortBy_perm _ _
        have hSlen : S.length = entries.length := by
          rw [hperm.length_eq, hashEntries, hashEntriesAux_length]
        have hSbucket : ∀ e ∈ S, e.bucket < B := by
          intro e he
          obtain ⟨k, hk, hh, hb⟩ := hashEntries_mem_spec (hperm.mem_iff.mp he)
          rw [hb]
          exact Nat.mod_lt _ hB
        obtain ⟨hflat, hfst, hgb⟩ := formBucketsAux_spec B 0 S
          sorted_entries_bucket_mono (fun e _ => Nat.zero_le _)
          (fun e he => by simpa using hSbucket e he)
        have hbperm : (sortBy (fun b1 b2 => b2.2.length ≤ b1.2.length)
            (formBucketsAux B 0 S)).Perm (formBucketsAux B 0 S) :=
          sortBy_perm _ _
        set BS := sortBy (fun b1 b2 => b2.2.length ≤ b1.2.length)
          (formBucketsAux B 0 S) with hBSdef
        have hnd : (BS.map Prod.fst).Nodup := by
          rw [(hbperm.map Prod.fst).nodup_iff, hfst]
          exact List.nodup_range' 0 B
        have hgrpmem : ∀ p ∈ BS, ∀ e ∈ p.2, e ∈ hashEntries h seed B entries := by
          intro p hp e he
          have hp' : p ∈ formBucketsAux B 0 S := hbperm.mem_iff.mp hp
          have heS : e ∈ S := by
            rw [← hflat]
            exact List.mem_flatten.mpr ⟨p.2, List.mem_map.mpr ⟨p, hp', rfl⟩, he⟩
          exact hperm.mem_iff.mp heS
        have hidxlt : ∀ p ∈ BS, ∀ e ∈ p.2, e.idx < entries.length := by
          intro p hp e he
          obtain ⟨k, hk, _, _⟩ := hashEntries_mem_spec (hgrpmem p hp e he)
          exact (List.get?_eq_some.mp hk).1
        have hidxne : ∀ p ∈ BS, ∀ e ∈ p.2, e.idx ≠ EMPTY := by
          intro p hp e he
          have := hidxlt p hp e he
          omega
        have hblt' : ∀ p ∈ BS, p.1 < (List.replicate B (0 : Nat)).length := by
          intro p hp
          have hmm : p.1 ∈ (formBucketsAux B 0 S).map Prod.fst :=
            List.mem_map.mpr ⟨p, hbperm.mem_iff.mp hp, rfl⟩
          rw [hfst] at hmm
          have := List.mem_range'_1.mp hmm
          simp only [List.length_replicate]
          omega
        obtain ⟨c1, c2, c3, c4, c5, c6⟩ := placeBuckets_spec hM BS
          (List.replicate B 0) (List.replicate M EMPTY) pilots m
          (by simp) hblt' hidxne hnd hpb
        have hpl : pilots.length = B := by simpa using c1
        have hml : m.length = M := by simpa using c2
        have hsum : (BS.map (fun p => p.2.length)).sum = entries.length := by
          rw [(hbperm.map (fun p => p.2.length)).sum_eq]
          have h2 : (formBucketsAux B 0 S).map (fun p => p.2.length) =
              ((formBucketsAux B 0 S).map Prod.snd).map List.length := by
            rw [List.map_map]
            rfl
          rw [h2, ← List.length_flatten, hflat, hSlen]
        have hocc : cntOcc m 0 M = entries.length := by
          rw [c6, hsum, cntOcc_replicate_empty M M 0]
          omega
        have hnM : entries.length ≤ M := by
          have := cntOcc_le m M 0
          omega
        have hcnt0 : cntEmp m 0 entries.length =
            cntOcc m entries.length (M - entries.length) := by
          have hsp : cntOcc m 0 M = cntOcc m 0 entries.length +
              cntOcc m entries.length (M - entries.length) := by
            have harith : M = entries.length + (M - entries.length) := by omega
            conv_lhs => rw [harith]
            rw [cntOcc_split]
            simp
          have hae := cntOcc_add_cntEmp m entries.length 0
          omega
        have heqres : compactLoop entries.length entries.length 0 m
            (List.replicate (M - entries.length) 0) entries.length =
            (res.1, res.2) := by
          rw [Prod.mk.eta]
        obtain ⟨g1, g2, g3, g4, g5, g6, g7⟩ := compactLoop_spec hnM
          entries.length 0 m (List.replicate (M - entries.length) 0)
          res.1 res.2 entries.length hml (by simp) (by omega) (le_refl _)
          hcnt0 heqres
        have hfrlen : res.2.length = M - entries.length := by
          rw [g2]
          simp
        have hfree_n_M : entries.length + res.2.length = M := by omega
        -- every input key's placement destination holds its index
        have hplaced : ∀ i k, entries.get? i = some k →
            m.getD (getIndex (h k seed)
              (hashPilotValue (pilots.getD (getBucket (h k seed) B) 0)) M) EMPTY
              = i := by
          intro i k hik
          have hmem := @mem_hashEntries K h seed B entries i k hik
          have hmemS := hperm.mem_iff.mpr hmem
          rw [← hflat] at hmemS
          obtain ⟨g, hgmem, hegrp⟩ := List.mem_flatten.mp hmemS
          obtain ⟨p, hpBK, rfl⟩ := List.mem_map.mp hgmem
          have hpBS : p ∈ BS := hbperm.mem_iff.mpr hpBK
          have hb1 := hgb p hpBK _ hegrp
          have hc5 := c5 p hpBS _ hegrp
          rw [← hb1] at hc5
          simpa using hc5
        -- the final per-key lookup facts
        have hkeyfinal : ∀ i k, entries.get? i = some k →
            phfSlot h phf entries.length k < entries.length ∧
            phf.map.getD (phfSlot h phf entries.length k) EMPTY = i := by
          intro i k hik
          have hkh := hplaced i k hik
          have hilt : i < entries.length := (List.get?_eq_some.mp hik).1
          have hine : i ≠ EMPTY := by omega
          have hdM : getIndex (h k seed)
              (hashPilotValue (pilots.getD (getBucket (h k seed) B) 0)) M < M :=
            Nat.mod_lt _ hM
          have hidx2 : phfIdx h phf entries.length k =
              getIndex (h k seed)
                (hashPilotValue (pilots.getD (getBucket (h k seed) B) 0)) M := by
            simp only [phfIdx]
            rw [hseed, hpilots, hpl, hfree, hfree_n_M]
          set d := getIndex (h k seed)
            (hashPilotValue (pilots.getD (getBucket (h k seed) B) 0)) M with hd
          by_cases hdn : d < entries.length
          · have hslot : phfSlot h phf entries.length k = d := by
              simp only [phfSlot]
              rw [hidx2, if_pos hdn]
            refine ⟨hslot ▸ hdn, ?_⟩
            rw [hslot, hmapc, getD_take_lt res.1 EMPTY hdn,
              g5 d (Nat.zero_le d) hdn (by rw [hkh]; exact hine), hkh]
          · obtain ⟨f', hf0, hfn, hfr, hmf, _⟩ := g6 d (by omega) hdM
              (by rw [hkh]; exact hine)
            have hslot : phfSlot h phf entries.length k = f' := by
              simp only [phfSlot]
              rw [hidx2, if_neg hdn, hfree, hfr]
            refine ⟨hslot ▸ hfn, ?_⟩
            rw [hslot, hmapc, getD_take_lt res.1 EMPTY hfn, hmf, hkh]
        refine ⟨hseed, by rw [hpilots, hpl], ?_, hnM, by rw [hfree, hfrlen],
          hlt, ?_, hkeyfinal, ?_⟩
        · rw [hmapc, List.length_take, g1, hml]
          omega
        · intro j hj
          rw [hfree] at hj ⊢
          rcases g7 j (by omega) with heq0 | hltn
          · rw [heq0, getD_replicate_self (M - entries.length) 0 0 (by omega)]
            exact Or.inl rfl
          · exact Or.inr hltn
        · intro s hs
          let g : Fin entries.length → Fin entries.length := fun i =>
            ⟨phfSlot h phf entries.length (entries.get i),
              (hkeyfinal i (entries.get i) (List.get?_eq_get i.2)).1⟩
          have hginj : Function.Injective g := by
            intro i1 i2 hgeq
            have e1 := (hkeyfinal i1 (entries.get i1) (List.get?_eq_get i1.2)).2
            have e2 := (hkeyfinal i2 (entries.get i2) (List.get?_eq_get i2.2)).2
            have hv : phfSlot h phf entries.length (entries.get i1) =
                phfSlot h phf entries.length (entries.get i2) :=
              congrArg Fin.val hgeq
            apply Fin.ext
            rw [← e1, ← e2, hv]
          obtain ⟨i, hgi⟩ := Finite.injective_iff_surjective.mp hginj ⟨s, hs⟩
          exact ⟨i, entries.get i, List.get?_eq_get i.2, congrArg Fin.val hgi⟩

/-! ## The seed search and the remaining attempt-level lemmas -/

lemma tryGeneratePhf_seed {K : Type _} [DecidableEq K] {h : K → Nat → Nat}
    {B M seed : Nat} {entries : List K} {phf : Phf}
    (hsucc : tryGeneratePhf h B M seed entries = .ok (some phf)) :
    phf.seed = seed := by
  simp only [tryGeneratePhf] at hsucc
  split at hsucc
  · exact absurd hsucc (by simp)
  · exact absurd hsucc (by simp)
  next hscan =>
    split at hsucc
    case isFalse => exact absurd hsucc (by simp)
    case isTrue hlt =>
      split at hsucc
      case _ => exact absurd hsucc (by simp)
      case _ pilots m hpb =>
        simp only [Except.ok.injEq, Option.some.injEq] at hsucc
        rw [← hsucc]

lemma seedSearch_some_spec {K : Type _} [DecidableEq K] {h : K → Nat → Nat}
    {B M : Nat} {entries : List K} {phf : Phf} :
    ∀ {fuel k0 : Nat}, seedSearch h B M entries fuel k0 = .ok (some phf) →
      ∃ k, k0 ≤ k ∧
        tryGeneratePhf h B M ((k <<< 32) % U64) entries = .ok (some phf) ∧
        ∀ t, k0 ≤ t → t < k →
          tryGeneratePhf h B M ((t <<< 32) % U64) entries = .ok none := by
  intro fuel
  induction fuel with
  | zero =>
    intro k0 hs
    rw [seedSearch] at hs
    exact absurd hs (by simp)
  | succ fuel ih =>
    intro k0 hs
    rw [seedSearch] at hs
    cases htry : tryGeneratePhf h B M ((k0 <<< 32) % U64) entries with
    | error e =>
      rw [htry] at hs
      exact absurd hs (by simp)
    | ok o =>
      cases o with
      | some phf2 =>
        rw [htry] at hs
        have hphf : phf2 = phf := by simpa using hs
        subst hphf
        exact ⟨k0, le_refl _, htry, fun t ht1 ht2 => by omega⟩
      | none =>
        rw [htry] at hs
        obtain ⟨k, hk1, hk2, hk3⟩ := ih hs
        refine ⟨k, by omega, hk2, fun t ht1 ht2 => ?_⟩
        by_cases htk : t = k0
        · subst htk
          exact htry
        · exact hk3 t (by omega) ht2

lemma tryGeneratePhf_too_many {K : Type _} [DecidableEq K] {h : K → Nat → Nat}
    {B M seed : Nat} {entries : List K} (hn : EMPTY ≤ entries.length) :
    (∀ phf0 : Phf, tryGeneratePhf h B M seed entries ≠ .ok (some phf0)) ∧
    (scanCollisions entries (sortBy entryLE (hashEntries h seed B entries))
        = .ok true →
      tryGeneratePhf h B M seed entries = .error .tooManyKeys) := by
  constructor
  · intro phf0 hc
    simp only [tryGeneratePhf] at hc
    split at hc
    · exact absurd hc (by simp)
    · exact absurd hc (by simp)
    next hscan =>
      rw [if_neg (by omega)] at hc
      exact absurd hc (by simp)
  · intro hscan
    simp only [tryGeneratePhf, hscan]
    rw [if_neg (by omega)]

lemma scanCollisions_ok_false {K : Type _} [DecidableEq K] {entries : List K} :
    ∀ {l : List HashedEntry}, scanCollisions entries l = .ok false →
      ∃ e0 e1, e0 ∈ l ∧ e1 ∈ l ∧ e0.hash = e1.hash ∧
        entries.get? e0.idx ≠ entries.get? e1.idx := by
  intro l
  induction l with
  | nil => intro hscan; simp [scanCollisions] at hscan
  | cons e0 tail ih =>
    intro hscan
    cases tail with
    | nil => simp [scanCollisions] at hscan
    | cons e1 rest =>
      rw [scanCollisions] at hscan
      by_cases hcoll : e0.hash = e1.hash ∧ e0.bucket = e1.bucket
      · rw [if_pos hcoll] at hscan
        by_cases hk : entries.get? e0.idx = entries.get? e1.idx
        · rw [if_pos hk] at hscan; cases hscan
        · rw [if_neg hk] at hscan
          exact ⟨e0, e1, by simp, by simp, hcoll.1, hk⟩
      · rw [if_neg hcoll] at hscan
        obtain ⟨f0, f1, hm0, hm1, hh, hne⟩ := ih hscan
        exact ⟨f0, f1, by simp [hm0], by simp [hm1], hh, hne⟩

lemma tryGeneratePhf_duplicate {K : Type _} [DecidableEq K] {h : K → Nat → Nat}
    {B M seed : Nat} {entries : List K} {i j : Nat} {k : K}
    (hij : i ≠ j) (hi : entries.get? i = some k) (hj : entries.get? j = some k)
    (hinj : ∀ a b, a ∈ entries → b ∈ entries → h a seed = h b seed → a = b) :
    ∃ p q, p ≠ q ∧ p < entries.length ∧ q < entries.length ∧
      entries.get? p = entries.get? q ∧
      tryGeneratePhf h B M seed entries = .error (.duplicateKeys p q) := by
  set S := sortBy entryLE (hashEntries h seed B entries) with hSdef
  have hperm : S.Perm (hashEntries h seed B entries) := sortBy_perm _ _
  have hE1 : HashedEntry.mk i (h k seed) (getBucket (h k seed) B) ∈ S :=
    hperm.mem_iff.mpr (mem_hashEntries hi)
  have hE2 : HashedEntry.mk j (h k seed) (getBucket (h k seed) B) ∈ S :=
    hperm.mem_iff.mpr (mem_hashEntries hj)
  have hE12 : HashedEntry.mk i (h k seed) (getBucket (h k seed) B) ≠
      HashedEntry.mk j (h k seed) (getBucket (h k seed) B) := by
    intro hc
    exact hij (congrArg HashedEntry.idx hc)
  cases hscan : scanCollisions entries S with
  | ok b =>
    cases b with
    | true =>
      exfalso
      have hpair := sorted_chain_pairwise S sorted_entries_pairwise
        (scanCollisions_ok_true hscan)
      have hsym : Symmetric
          (fun a b : HashedEntry => ¬(a.hash = b.hash ∧ a.bucket = b.bucket)) :=
        fun a b hab ⟨h1, h2⟩ => hab ⟨h1.symm, h2.symm⟩
      exact (List.Pairwise.forall hsym hpair hE1 hE2 hE12) ⟨rfl, rfl⟩
    | false =>
      exfalso
      obtain ⟨e0, e1, hm0, hm1, hh, hne⟩ := scanCollisions_ok_false hscan
      obtain ⟨k0, hk0, hh0, _⟩ := hashEntries_mem_spec (hperm.mem_iff.mp hm0)
      obtain ⟨k1, hk1, hh1, _⟩ := hashEntries_mem_spec (hperm.mem_iff.mp hm1)
      have hkk : k0 = k1 :=
        hinj k0 k1 (List.get?_mem hk0) (List.get?_mem hk1)
          (by rw [← hh0, ← hh1, hh])
      exact hne (by rw [hk0, hk1, hkk])
  | error er =>
    obtain ⟨e0, e1, l1, l2, hdec, her, hh, hb, hkeq⟩ := scanCollisions_error hscan
    have hm0 : e0 ∈ S := by rw [hdec]; simp
    have hm1 : e1 ∈ S := by rw [hdec]; simp
    have hidxne : e0.idx ≠ e1.idx := by
      have hnodup : (S.map HashedEntry.idx).Nodup :=
        ((hperm.map HashedEntry.idx).nodup_iff).mpr
          (hashEntries_nodup_idx h seed B entries)
      rw [hdec] at hnodup
      have hsub : [e0.idx, e1.idx].Sublist
          ((l1 ++ e0 :: e1 :: l2).map HashedEntry.idx) := by
        rw [List.map_append, List.map_cons, List.map_cons]
        exact (List.Sublist.cons₂ _ (List.Sublist.cons₂ _
          (List.nil_sublist _))).trans (List.sublist_append_right _ _)
      have := hsub.nodup hnodup
      simpa using this
    obtain ⟨k0, hk0, _, _⟩ := hashEntries_mem_spec (hperm.mem_iff.mp hm0)
    obtain ⟨k1, hk1, _, _⟩ := hashEntries_mem_spec (hperm.mem_iff.mp hm1)
    refine ⟨e0.idx, e1.idx, hidxne, (List.get?_eq_some.mp hk0).1,
      (List.get?_eq_some.mp hk1).1, hkeq, ?_⟩
    simp only [tryGeneratePhf, hscan, her]

/-! ## Claim theorems -/

/-- Claim C2, counterexample: the claim says a keys/values length mismatch is
surfaced as a fatal error during construction, but `build_raw_map` and
`build_map` build successfully from two keys and zero values — no length check
exists in the source. -/
theorem build_length_mismatch_unchecked :
    isBuilt (buildRawMap (fun (k : Nat) _ => k) 1 3 1 [0, 1] ([] : List Nat))
      = true ∧
    isBuilt (buildMap (fun (k : Nat) _ => k) 1 3 1 [0, 1] ([] : List Nat))
      = true ∧
    [0, 1].length ≠ ([] : List Nat).length := by
  refine ⟨by decide, by decide, by decide⟩

/-- Claim C2 (amended): `build_raw_map` and `build_map` perform no length
check at construction time; the outcome (which fatal error, if any, and
whether an artifact is produced) is entirely independent of the values
slice, so a length mismatch is never surfaced during construction. -/
theorem build_outcome_ignores_values {K V W : Type} [DecidableEq K]
    (h : K → Nat → Nat) (B M fuel : Nat) (keys : List K)
    (values : List V) (values' : List W) :
    buildErr (buildRawMap h B M fuel keys values) =
      buildErr (buildRawMap h B M fuel keys values') ∧
    isBuilt (buildRawMap h B M fuel keys values) =
      isBuilt (buildRawMap h B M fuel keys values') ∧
    buildErr (buildMap h B M fuel keys values) =
      buildErr (buildMap h B M fuel keys values') ∧
    isBuilt (buildMap h B M fuel keys values) =
      isBuilt (buildMap h B M fuel keys values') := by
  cases hg : generatePhfWith h B M keys fuel with
  | error e =>
    simp [buildRawMap, buildMap, buildErr, isBuilt, hg, Except.map]
  | ok o =>
    cases o <;>
      simp [buildRawMap, buildMap, buildErr, isBuilt, hg, Except.map]

/-- Claim C3, counterexample: on the empty-input sentinel table
(`pilots_table = [0]`, `values = []`, `free = [0]`) a raw lookup does fail, but
with an out-of-bounds slice access taken after both modulo reductions, not via
the explicit `N == 0` early-out the claim describes — no such early-out exists
in `RawPhfMap::get`. -/
theorem raw_get_empty_no_early_out :
    rawMapGet (fun (k : Nat) _ => k) 0 [0] ([] : List Nat) [0] 5
      = .error .indexOutOfBounds ∧
    rawMapGet (fun (k : Nat) _ => k) 0 [0] ([] : List Nat) [0] 5
      ≠ .error .emptyEarlyOut := by
  refine ⟨by decide, by decide⟩

/-- Claim C3 (amended): for every query against the empty sentinel table that
`generate_phf` emits for `N = 0`, `RawPhfMap::get` fails — but the failure is
the out-of-bounds indexing `values[free[idx - N]]` reached after both modulo
reductions have been performed; there is no `N == 0` early-out in the code. -/
theorem raw_get_empty_fails_out_of_bounds {Q V : Type} (h : Q → Nat → Nat)
    (seed : Nat) (q : Q) :
    rawMapGet h seed generatePhfEmpty.pilotsTable ([] : List V)
      generatePhfEmpty.free q = .error .indexOutOfBounds := by
  simp [rawMapGet, generatePhfEmpty, getBucket, getIndex, hashPilotValue,
    Nat.mod_one]

/-- Claim C7: every lookup operation on an empty (`N = 0`) `PhfMap` or
`PhfSet` returns the empty answer (`none` / `false`) for every query, every
seed and arbitrary contents of the pilots and free tables — so no table
access can influence (or panic during) the result. -/
theorem empty_lookups_return_empty {K V : Type} [DecidableEq K]
    (h : K → Nat → Nat) (seed : Nat) (pilots free : List Nat) (q : K) :
    phfMapGetKeyValue h seed pilots ([] : List (K × V)) free q = .ok none ∧
    phfMapGet h seed pilots ([] : List (K × V)) free q = .ok none ∧
    phfMapGetKey h seed pilots ([] : List (K × V)) free q = .ok none ∧
    phfMapContainsKey h seed pilots ([] : List (K × V)) free q = .ok false ∧
    PhfSetM.get h ⟨seed, pilots, [], free⟩ q = .ok none ∧
    PhfSetM.contains h ⟨seed, pilots, [], free⟩ q = .ok false := by
  refine ⟨rfl, rfl, rfl, rfl, rfl, rfl⟩

/-- Claim C8: for any two sets whose `contains` agrees with membership in
their stored elements (which clause C1 guarantees for every constructed set),
the set-algebra iterators agree with the membership predicates: `union` yields
exactly the elements contained in either set, `intersection` exactly those
contained in both, and `symmetric_difference` yields exactly the elements of
the two one-sided differences. -/
theorem set_algebra_iterators {K : Type} [DecidableEq K] (h : K → Nat → Nat)
    (A B : PhfSetM K)
    (hA : ∀ x, PhfSetM.containsB h A x = true ↔ x ∈ A.elems)
    (hB : ∀ x, PhfSetM.containsB h B x = true ↔ x ∈ B.elems) :
    (∀ x, x ∈ PhfSetM.unionElems h A B ↔
      (PhfSetM.containsB h A x = true ∨ PhfSetM.containsB h B x = true)) ∧
    (∀ x, x ∈ PhfSetM.intersectionElems h A B ↔
      (PhfSetM.containsB h A x = true ∧ PhfSetM.containsB h B x = true)) ∧
    (∀ x, x ∈ PhfSetM.symmDiffElems h A B ↔
      (x ∈ PhfSetM.differenceElems h A B ∨
        x ∈ PhfSetM.differenceElems h B A)) := by
  refine ⟨?_, ?_, ?_⟩
  · intro x
    simp only [PhfSetM.unionElems, PhfSetM.differenceElems, List.mem_append,
      List.mem_filter, Bool.not_eq_true']
    constructor
    · rintro (hx | ⟨hx, _⟩)
      · exact Or.inl ((hA x).mpr hx)
      · exact Or.inr ((hB x).mpr hx)
    · rintro (hx | hx)
      · exact Or.inl ((hA x).mp hx)
      · by_cases hxa : PhfSetM.containsB h A x = true
        · exact Or.inl ((hA x).mp hxa)
        · exact Or.inr ⟨(hB x).mp hx, Bool.not_eq_true _ ▸ hxa⟩
  · intro x
    simp only [PhfSetM.intersectionElems, List.mem_filter]
    constructor
    · rintro ⟨hx, hc⟩
      exact ⟨(hA x).mpr hx, hc⟩
    · rintro ⟨ha, hc⟩
      exact ⟨(hA x).mp ha, hc⟩
  · intro x
    simp [PhfSetM.symmDiffElems, List.mem_append]

/-- Witness for C8 at two concrete singleton sets `{10}` and `{20}` with the
identity hash: the membership hypotheses hold and the three iterator laws
follow. -/
theorem set_algebra_iterators_witness :
    (∀ x, PhfSetM.containsB (fun (k : Nat) _ => k) ⟨0, [0], [10], []⟩ x = true
        ↔ x ∈ ([10] : List Nat)) ∧
    (∀ x, PhfSetM.containsB (fun (k : Nat) _ => k) ⟨0, [0], [20], []⟩ x = true
        ↔ x ∈ ([20] : List Nat)) ∧
    (∀ x, x ∈ PhfSetM.unionElems (fun (k : Nat) _ => k)
        ⟨0, [0], [10], []⟩ ⟨0, [0], [20], []⟩ ↔
      (PhfSetM.containsB (fun (k : Nat) _ => k) ⟨0, [0], [10], []⟩ x = true ∨
        PhfSetM.containsB (fun (k : Nat) _ => k) ⟨0, [0], [20], []⟩ x = true)) := by
  have hA : ∀ x, PhfSetM.containsB (fun (k : Nat) _ => k) ⟨0, [0], [10], []⟩ x
      = true ↔ x ∈ ([10] : List Nat) := by
    intro x
    simp [PhfSetM.containsB, PhfSetM.contains, PhfSetM.get, rawMapGet,
      getBucket, getIndex, hashPilotValue, Nat.mod_one, Except.map]
    constructor
    · intro hx
      simp [hx.symm]
    · intro hx
      simp [hx]
  have hB : ∀ x, PhfSetM.containsB (fun (k : Nat) _ => k) ⟨0, [0], [20], []⟩ x
      = true ↔ x ∈ ([20] : List Nat) := by
    intro x
    simp [PhfSetM.containsB, PhfSetM.contains, PhfSetM.get, rawMapGet,
      getBucket, getIndex, hashPilotValue, Nat.mod_one, Except.map]
    constructor
    · intro hx
      simp [hx.symm]
    · intro hx
      simp [hx]
  exact ⟨hA, hB, (set_algebra_iterators (fun (k : Nat) _ => k)
    ⟨0, [0], [10], []⟩ ⟨0, [0], [20], []⟩ hA hB).1⟩

/-! ## Helpers for the lookup-safety claim -/

lemma getD_eq_get {α : Type _} (l : List α) (d : α) {j : Nat}
    (hj : j < l.length) : l.getD j d = l.get ⟨j, hj⟩ := by
  rw [List.getD_eq_getElem?_getD, List.getElem?_eq_getElem hj]
  rfl

lemma getD_eq_of_get? {α : Type _} {l : List α} {j : Nat} {x : α} (d : α)
    (hj : l.get? j = some x) : l.getD j d = x := by
  rw [List.getD_eq_getElem?_getD, ← List.get?_eq_getElem?, hj]
  rfl

lemma rawMapGet_ok {Q V : Type _} (h : Q → Nat → Nat) (seed : Nat)
    (pilots : List Nat) (values : List V) (free : List Nat) (q : Q)
    (hp : 0 < pilots.length)
    (hcod : 0 < values.length + free.length)
    (hfree : ∀ j, j < free.length → free.getD j 0 < values.length) :
    ∃ v, rawMapGet h seed pilots values free q = .ok v := by
  have hb : getBucket (h q seed) pilots.length < pilots.length :=
    Nat.mod_lt _ hp
  have hidxlt : getIndex (h q seed)
      (hashPilotValue (pilots.get ⟨_, hb⟩)) (values.length + free.length) <
      values.length + free.length := Nat.mod_lt _ hcod
  simp only [rawMapGet, List.get?_eq_get hb]
  by_cases hvl : getIndex (h q seed)
      (hashPilotValue (pilots.get ⟨_, hb⟩)) (values.length + free.length) <
      values.length
  · rw [if_pos hvl, List.get?_eq_get hvl]
    exact ⟨_, rfl⟩
  · have hfr : getIndex (h q seed)
        (hashPilotValue (pilots.get ⟨_, hb⟩)) (values.length + free.length) -
        values.length < free.length := by omega
    have hfb : free.get ⟨_, hfr⟩ < values.length := by
      rw [← getD_eq_get free 0 hfr]
      exact hfree _ hfr
    rw [if_neg hvl]
    simp only [List.get?_eq_get hfr, List.get?_eq_get hfb]
    exact ⟨_, rfl⟩

/-! ## The main claim theorems about construction -/

/-- Claim C1: for every list of pairwise-distinct keys with `N > 0`, the PHF
returned by `generate_phf` is perfect: the lookup slot function — the
hash / pilot-XOR / modulo index followed by the `free` redirect when the index
is `≥ N` — maps every input key into `[0, N)` and onto the slot holding its
own payload (`map[slot(key i)] = i`), no two distinct input keys share a slot,
and every slot in `[0, N)` is reached. -/
theorem phf_is_perfect {K : Type} [DecidableEq K] (h : K → Nat → Nat)
    (B M fuel : Nat) (entries : List K) (phf : Phf)
    (hB : 0 < B) (hM : 0 < M) (hnd : entries.Nodup) (hne : entries ≠ [])
    (hgen : generatePhfWith h B M entries fuel = .ok (some phf)) :
    (∀ i k, entries.get? i = some k →
      phfSlot h phf entries.length k < entries.length ∧
      phf.map.getD (phfSlot h phf entries.length k) EMPTY = i) ∧
    (∀ k1 k2, k1 ∈ entries → k2 ∈ entries →
      phfSlot h phf entries.length k1 = phfSlot h phf entries.length k2 →
      k1 = k2) ∧
    (∀ s, s < entries.length →
      ∃ k ∈ entries, phfSlot h phf entries.length k = s) := by
  rw [generatePhfWith, if_neg (by simp [hne])] at hgen
  obtain ⟨kk, _, htry, _⟩ := seedSearch_some_spec hgen
  obtain ⟨_, _, _, _, _, _, _, hkey, hsurj⟩ := tryGeneratePhf_some_spec hB hM htry
  refine ⟨hkey, ?_, ?_⟩
  · intro k1 k2 hk1 hk2 hslot
    obtain ⟨i1, hi1⟩ := List.mem_iff_get?.mp hk1
    obtain ⟨i2, hi2⟩ := List.mem_iff_get?.mp hk2
    have e1 := (hkey i1 k1 hi1).2
    have e2 := (hkey i2 k2 hi2).2
    rw [hslot] at e1
    have hii : i1 = i2 := by rw [← e1, ← e2]
    rw [hii] at hi1
    exact Option.some.inj (hi1.symm.trans hi2)
  · intro s hs
    obtain ⟨i, k, hik, hslot⟩ := hsurj s hs
    exact ⟨k, List.get?_mem hik, hslot⟩

/-- Witness for C1 at the two-key input `[0, 1]` with the identity hash,
`B = 1`, `M = 3`: construction succeeds at the first seed and the bijection
facts follow. -/
theorem phf_is_perfect_witness :
    (0 : Nat) < 1 ∧ (0 : Nat) < 3 ∧ ([0, 1] : List Nat).Nodup ∧
    ([0, 1] : List Nat) ≠ [] ∧
    generatePhfWith (fun (k : Nat) _ => k) 1 3 [0, 1] 1 =
      .ok (some (Phf.mk 4294967296 [0] [0, 1] [0])) ∧
    ((∀ i k, ([0, 1] : List Nat).get? i = some k →
      phfSlot (fun (k : Nat) _ => k) (Phf.mk 4294967296 [0] [0, 1] [0]) 2 k < 2 ∧
      (Phf.mk 4294967296 [0] [0, 1] [0]).map.getD
        (phfSlot (fun (k : Nat) _ => k) (Phf.mk 4294967296 [0] [0, 1] [0]) 2 k)
        EMPTY = i) ∧
    (∀ k1 k2, k1 ∈ ([0, 1] : List Nat) → k2 ∈ ([0, 1] : List Nat) →
      phfSlot (fun (k : Nat) _ => k) (Phf.mk 4294967296 [0] [0, 1] [0]) 2 k1 =
        phfSlot (fun (k : Nat) _ => k) (Phf.mk 4294967296 [0] [0, 1] [0]) 2 k2 →
      k1 = k2) ∧
    (∀ s, s < 2 →
      ∃ k ∈ ([0, 1] : List Nat),
        phfSlot (fun (k : Nat) _ => k) (Phf.mk 4294967296 [0] [0, 1] [0]) 2 k
          = s)) := by
  refine ⟨by decide, by decide, by decide, by decide, by decide, ?_⟩
  exact phf_is_perfect (fun (k : Nat) _ => k) 1 3 1 [0, 1]
    (Phf.mk 4294967296 [0] [0, 1] [0]) (by decide) (by decide) (by decide)
    (by decide) (by decide)

/-- Claim C4: whenever the input contains two keys that compare equal (and the
hash is otherwise collision-free on the input, as wyhash is in practice),
construction aborts with a duplicate-key fatal error naming two indices that
hold equal keys; in particular `build_set [1, 2, 3, 2]` fails naming indices 1
and 3 (see the witness). -/
theorem duplicate_keys_abort {K : Type} [DecidableEq K] (h : K → Nat → Nat)
    (B M fuel : Nat) (entries : List K) (i j : Nat) (k : K)
    (hfuel : 0 < fuel) (hij : i ≠ j)
    (hi : entries.get? i = some k) (hj : entries.get? j = some k)
    (hinj : ∀ a b, a ∈ entries → b ∈ entries →
      h a ((1 <<< 32) % U64) = h b ((1 <<< 32) % U64) → a = b) :
    ∃ p q, p ≠ q ∧ p < entries.length ∧ q < entries.length ∧
      entries.get? p = entries.get? q ∧
      buildSet h B M fuel entries = .error (.duplicateKeys p q) := by
  have hne : entries ≠ [] := by
    intro hc
    rw [hc] at hi
    simp at hi
  obtain ⟨p, q, hpq, hp, hq, hkeys, herr⟩ :=
    @tryGeneratePhf_duplicate K _ h B M ((1 <<< 32) % U64) entries i j k
      hij hi hj hinj
  refine ⟨p, q, hpq, hp, hq, hkeys, ?_⟩
  obtain ⟨fuel', rfl⟩ : ∃ f, fuel = f + 1 := ⟨fuel - 1, by omega⟩
  rw [buildSet, generatePhfWith, if_neg (by simp [hne]), seedSearch, herr]
  rfl

/-- Witness for C4 at the spec's own example `build_set [1, 2, 3, 2]` (with
the identity hash, `B = 1`, `M = 5`): construction fails with a
duplicate-keys error naming indices 1 and 3. -/
theorem duplicate_keys_abort_witness :
    (0 : Nat) < 1 ∧ (1 : Nat) ≠ 3 ∧
    ([1, 2, 3, 2] : List Nat).get? 1 = some 2 ∧
    ([1, 2, 3, 2] : List Nat).get? 3 = some 2 ∧
    buildSet (fun (k : Nat) _ => k) 1 5 1 [1, 2, 3, 2] =
      .error (.duplicateKeys 1 3) ∧
    (∃ p q, p ≠ q ∧ p < ([1, 2, 3, 2] : List Nat).length ∧
      q < ([1, 2, 3, 2] : List Nat).length ∧
      ([1, 2, 3, 2] : List Nat).get? p = ([1, 2, 3, 2] : List Nat).get? q ∧
      buildSet (fun (k : Nat) _ => k) 1 5 1 [1, 2, 3, 2] =
        .error (.duplicateKeys p q)) := by
  refine ⟨by decide, by decide, by decide, by decide, by decide, ?_⟩
  exact duplicate_keys_abort (fun (k : Nat) _ => k) 1 5 1 [1, 2, 3, 2] 1 3 2
    (by decide) (by decide) (by decide) (by decide) (fun a b _ _ e => e)

/-- Claim C5: every PHF returned by `generate_phf` for a non-empty input comes
from the seed sequence `n << 32` for `n = 1, 2, 3, …`: its seed is `kk << 32`
for some `kk ≥ 1`, that attempt succeeded, and every earlier seed in the
sequence failed. -/
theorem seed_search_first_success {K : Type} [DecidableEq K]
    (h : K → Nat → Nat) (B M fuel : Nat) (entries : List K) (phf : Phf)
    (hne : entries ≠ [])
    (hgen : generatePhfWith h B M entries fuel = .ok (some phf)) :
    ∃ kk, 1 ≤ kk ∧ phf.seed = (kk <<< 32) % U64 ∧
      tryGeneratePhf h B M phf.seed entries = .ok (some phf) ∧
      ∀ t, 1 ≤ t → t < kk →
        tryGeneratePhf h B M ((t <<< 32) % U64) entries = .ok none := by
  rw [generatePhfWith, if_neg (by simp [hne])] at hgen
  obtain ⟨kk, hk1, htry, hfail⟩ := seedSearch_some_spec hgen
  have hseed := tryGeneratePhf_seed htry
  exact ⟨kk, hk1, hseed, by rw [hseed]; exact htry, hfail⟩

/-- Witness for C5 at `[0, 1]` with the identity hash: the returned PHF's seed
is `1 << 32` and it is the first (and successful) attempt. -/
theorem seed_search_first_success_witness :
    ([0, 1] : List Nat) ≠ [] ∧
    generatePhfWith (fun (k : Nat) _ => k) 1 3 [0, 1] 1 =
      .ok (some (Phf.mk 4294967296 [0] [0, 1] [0])) ∧
    (∃ kk, 1 ≤ kk ∧
      (Phf.mk 4294967296 [0] [0, 1] [0]).seed = (kk <<< 32) % U64 ∧
      tryGeneratePhf (fun (k : Nat) _ => k) 1 3
        (Phf.mk 4294967296 [0] [0, 1] [0]).seed [0, 1] =
        .ok (some (Phf.mk 4294967296 [0] [0, 1] [0])) ∧
      ∀ t, 1 ≤ t → t < kk →
        tryGeneratePhf (fun (k : Nat) _ => k) 1 3 ((t <<< 32) % U64) [0, 1] =
          .ok none) := by
  refine ⟨by decide, by decide, ?_⟩
  exact seed_search_first_success (fun (k : Nat) _ => k) 1 3 1 [0, 1]
    (Phf.mk 4294967296 [0] [0, 1] [0]) (by decide) (by decide)

/-- Claim C9: for every table built by `generate_phf` on a non-empty input and
every query key (valid or not), `RawPhfMap::get` stays in bounds: the bucket
index is below the pilots-table length, the codomain index is below
`|values| + |free|`, the `free` redirect lands below `|values|`, and the
lookup returns a value without panicking. -/
theorem raw_get_in_bounds {K V : Type} [DecidableEq K] (h : K → Nat → Nat)
    (B M fuel : Nat) (entries : List K) (phf : Phf) (values : List V)
    (hB : 0 < B) (hM : 0 < M) (hne : entries ≠ [])
    (hgen : generatePhfWith h B M entries fuel = .ok (some phf))
    (hvl : values.length = entries.length) :
    ∀ q : K,
      getBucket (h q phf.seed) phf.pilotsTable.length <
        phf.pilotsTable.length ∧
      phfIdx h phf values.length q < values.length + phf.free.length ∧
      (∀ j, j < phf.free.length → phf.free.getD j 0 < values.length) ∧
      ∃ v, rawMapGet h phf.seed phf.pilotsTable values phf.free q = .ok v := by
  rw [generatePhfWith, if_neg (by simp [hne])] at hgen
  obtain ⟨kk, _, htry, _⟩ := seedSearch_some_spec hgen
  obtain ⟨hseed, hplen, hmlen, hnM, hflen, hltE, hfreeB, hkey, hsurj⟩ :=
    tryGeneratePhf_some_spec hB hM htry
  have hn0 : 0 < entries.length := List.length_pos.mpr hne
  have hfree' : ∀ j, j < phf.free.length → phf.free.getD j 0 < values.length := by
    intro j hjf
    rcases hfreeB j hjf with h0 | hlt
    · rw [h0]
      omega
    · omega
  intro q
  have hplpos : 0 < phf.pilotsTable.length := by omega
  have hcod : 0 < values.length + phf.free.length := by omega
  refine ⟨Nat.mod_lt _ hplpos, Nat.mod_lt _ hcod, hfree', ?_⟩
  exact rawMapGet_ok h phf.seed phf.pilotsTable values phf.free q
    hplpos hcod hfree'

/-- Witness for C9 at the constructed table for `[0, 1]` (identity hash) with
values `[10, 20]`, queried at the invalid key `7`. -/
theorem raw_get_in_bounds_witness :
    (0 : Nat) < 1 ∧ (0 : Nat) < 3 ∧ ([0, 1] : List Nat) ≠ [] ∧
    generatePhfWith (fun (k : Nat) _ => k) 1 3 [0, 1] 1 =
      .ok (some (Phf.mk 4294967296 [0] [0, 1] [0])) ∧
    ([10, 20] : List Nat).length = ([0, 1] : List Nat).length ∧
    (getBucket ((fun (k : Nat) _ => k) 7 (Phf.mk 4294967296 [0] [0, 1] [0]).seed)
        (Phf.mk 4294967296 [0] [0, 1] [0]).pilotsTable.length <
      (Phf.mk 4294967296 [0] [0, 1] [0]).pilotsTable.length ∧
    phfIdx (fun (k : Nat) _ => k) (Phf.mk 4294967296 [0] [0, 1] [0]) 2 7 <
      2 + (Phf.mk 4294967296 [0] [0, 1] [0]).free.length ∧
    (∀ j, j < (Phf.mk 4294967296 [0] [0, 1] [0]).free.length →
      (Phf.mk 4294967296 [0] [0, 1] [0]).free.getD j 0 < 2) ∧
    ∃ v, rawMapGet (fun (k : Nat) _ => k)
        (Phf.mk 4294967296 [0] [0, 1] [0]).seed
        (Phf.mk 4294967296 [0] [0, 1] [0]).pilotsTable ([10, 20] : List Nat)
        (Phf.mk 4294967296 [0] [0, 1] [0]).free 7 = .ok v) := by
  refine ⟨by decide, by decide, by decide, by decide, by decide, ?_⟩
  exact raw_get_in_bounds (fun (k : Nat) _ => k) 1 3 1 [0, 1]
    (Phf.mk 4294967296 [0] [0, 1] [0]) [10, 20] (by decide) (by decide)
    (by decide) (by decide) (by decide) 7

/-- Claim C10: `try_generate_phf` asserts `entries.len() < u32::MAX`: for any
input of at least `u32::MAX` keys no attempt can ever succeed (the attempt
panics once the collision scan passes), and every successfully constructed
PHF has `N < u32::MAX`, so every entry of its `map` and `free` tables fits
in a `u32`. -/
theorem size_guard_u32 {K : Type} [DecidableEq K] (h : K → Nat → Nat)
    (B M seed : Nat) (entries : List K) :
    (EMPTY ≤ entries.length →
      ∀ phf0 : Phf, tryGeneratePhf h B M seed entries ≠ .ok (some phf0)) ∧
    (EMPTY ≤ entries.length →
      scanCollisions entries (sortBy entryLE (hashEntries h seed B entries))
        = .ok true →
      tryGeneratePhf h B M seed entries = .error .tooManyKeys) ∧
    (∀ phf : Phf, 0 < B → 0 < M →
      tryGeneratePhf h B M seed entries = .ok (some phf) →
      entries.length < EMPTY ∧ (∀ x ∈ phf.map, x < 2 ^ 32) ∧
      ∀ x ∈ phf.free, x < 2 ^ 32) := by
  refine ⟨?_, ?_, ?_⟩
  · intro hn phf0
    exact (tryGeneratePhf_too_many hn).1 phf0
  · intro hn hscan
    exact (tryGeneratePhf_too_many hn).2 hscan
  · intro phf hB hM htry
    obtain ⟨_, _, hmlen, _, _, hltE, hfreeB, hkey, hsurj⟩ :=
      tryGeneratePhf_some_spec hB hM htry
    have hE32 : EMPTY < 2 ^ 32 := by decide
    refine ⟨hltE, ?_, ?_⟩
    · intro x hx
      obtain ⟨s, hs⟩ := List.mem_iff_get?.mp hx
      have hslen : s < phf.map.length := (List.get?_eq_some.mp hs).1
      have hsn : s < entries.length := by omega
      obtain ⟨i, k, hik, hslot⟩ := hsurj s hsn
      have hkd := (hkey i k hik).2
      rw [hslot] at hkd
      have hgd : phf.map.getD s EMPTY = x := getD_eq_of_get? EMPTY hs
      have hiln : i < entries.length := (List.get?_eq_some.mp hik).1
      omega
    · intro x hx
      obtain ⟨s, hs⟩ := List.mem_iff_get?.mp hx
      have hslen : s < phf.free.length := (List.get?_eq_some.mp hs).1
      have hgd : phf.free.getD s 0 = x := getD_eq_of_get? 0 hs
      rcases hfreeB s hslen with h0 | hlt
      · omega
      · omega

/-- Witness for C10, second conjunct, at the successful attempt on `[0, 1]`
(identity hash, seed 42): the size bound and the `u32` bounds on `map` and
`free` hold for the constructed PHF. -/
theorem size_guard_u32_witness :
    (0 : Nat) < 1 ∧ (0 : Nat) < 3 ∧
    tryGeneratePhf (fun (k : Nat) _ => k) 1 3 42 [0, 1] =
      .ok (some (Phf.mk 42 [0] [0, 1] [0])) ∧
    (([0, 1] : List Nat).length < EMPTY ∧
      (∀ x ∈ (Phf.mk 42 [0] [0, 1] [0]).map, x < 2 ^ 32) ∧
      ∀ x ∈ (Phf.mk 42 [0] [0, 1] [0]).free, x < 2 ^ 32) := by
  refine ⟨by decide, by decide, by decide, ?_⟩
  exact (size_guard_u32 (fun (k : Nat) _ => k) 1 3 42 [0, 1]).2.2
    (Phf.mk 42 [0] [0, 1] [0]) (by decide) (by decide) (by decide)

end QuickPhf
